import Mathlib

/-!
# Verification of `fast_wild_compare.rs`

This file embeds the two wildcard-matching routines of
`src/fast_wild_compare.rs` — `fast_wild_compare_ascii` (over the bytes of a
`&str`) and `fast_wild_compare_utf8` (over a slice of `char`) — and proves
them equivalent to a reference matching semantics.

The two Rust functions are textually identical up to the element type and
the way an element is read, so the machine is embedded once, generically
over a symbol type `α` with decidable equality and two sentinel values
`star` (`'*'`) and `qmark` (`'?'`), and instantiated twice: at `List Nat`
(byte values; `'*' = 42`, `'?' = 63`) and at `List Char`.

Every indexing operation of the Rust code is translated as `l[i]?`; a
`none` result yields the distinguished outcome `MResult.oob`, modelling an
out-of-bounds slice access (a panic in Rust).  Each loop of the source is
translated as a function structurally recursive on an explicit fuel
argument; exhausting the fuel yields `MResult.outOfFuel`.  At every call
site the fuel handed to an inner loop is one more than the relevant slice
length, which is shown sufficient; the fuel of the lower (phase-2) loop is
`fuelBound`, also shown sufficient.
-/

namespace FastWild

/-- Outcome of running the embedded machine: a boolean verdict, an
out-of-bounds index access (which would be a panic in Rust), or fuel
exhaustion. -/
inductive MResult where
  | ok (b : Bool)
  | oob
  | outOfFuel
deriving DecidableEq, Repr

/-- The mutable locals of the lower loop of both Rust functions:
`iwild` and `itame` are the match cursor pair, `iws` and `its` are the
fallback anchor (`iwild_sequence` and `itame_sequence` in the source). -/
structure MState where
  iwild : Nat
  itame : Nat
  iws : Nat
  its : Nat
deriving DecidableEq, Repr

variable {α : Type} [DecidableEq α]

/-- Reference matching semantics, following the spec's words: each literal
pattern symbol must have an exactly equal counterpart in the text, `qmark`
consumes exactly one text symbol (which must exist), and `star` consumes
zero or more text symbols such that the rest of the pattern still matches
the rest of the text.  Text symbols equal to `star` or `qmark` are ordinary
literals. -/
def rmatch (star qmark : α) : List α → List α → Bool
  | [], [] => true
  | [], _ :: _ => false
  | p :: ps, [] => if p = star then rmatch star qmark ps [] else false
  | p :: ps, c :: ts =>
    if p = star then rmatch star qmark ps (c :: ts) || rmatch star qmark (p :: ps) ts
    else if p = qmark ∨ p = c then rmatch star qmark ps ts
    else false
termination_by p t => p.length + t.length
decreasing_by all_goals (simp [List.length_cons]; try omega)

/-- Lines 44–54 / 258–268: the trailing-star loop of the upper loop,
entered when the text is exhausted but the pattern is not: succeed exactly
when every remaining pattern symbol is `star`. -/
def tailStars (star : α) (wild : List α) : Nat → Nat → MResult
  | 0, _ => .outOfFuel
  | fuel + 1, iwild =>
    match wild[iwild]? with
    | none => .oob
    | some c =>
      if c = star then
        if wild.length ≤ iwild + 1 then .ok true
        else tailStars star wild fuel (iwild + 1)
      else .ok false

/-- Lines 70–85 / 121–134 (and their UTF-8 twins): skip a maximal run of
consecutive `star` symbols starting at `iwild` (which holds a `star`).
`.inl r` is an early `return r` (the pattern ended inside the run);
`.inr j` is the index of the first non-`star` symbol after the run. -/
def skipStarRun (star : α) (wild : List α) : Nat → Nat → MResult ⊕ Nat
  | 0, _ => .inl .outOfFuel
  | fuel + 1, iwild =>
    if wild.length ≤ iwild + 1 then .inl (.ok true)
    else
      match wild[iwild + 1]? with
      | none => .inl .oob
      | some c =>
        if c = star then skipStarRun star wild fuel (iwild + 1)
        else .inr (iwild + 1)

/-- Lines 90–98 / 304–312: the upper loop's scan of the text for a symbol
equal to `c` (the pattern symbol right after the first star run). -/
def scanTame1 (c : α) (tame : List α) : Nat → Nat → MResult ⊕ Nat
  | 0, _ => .inl .outOfFuel
  | fuel + 1, itame =>
    match tame[itame]? with
    | none => .inl .oob
    | some d =>
      if c = d then .inr itame
      else if tame.length ≤ itame + 1 then .inl (.ok false)
      else scanTame1 c tame fuel (itame + 1)

/-- Lines 144–154 / 358–368: the lower loop's scan of the text for a symbol
equal to `c`, with the extra bounds test in the loop condition. -/
def scanTame2 (c : α) (tame : List α) : Nat → Nat → MResult ⊕ Nat
  | 0, _ => .inl .outOfFuel
  | fuel + 1, itame =>
    if tame.length ≤ itame then .inr itame
    else
      match tame[itame]? with
      | none => .inl .oob
      | some d =>
        if c = d then .inr itame
        else if tame.length ≤ itame + 1 then .inl (.ok false)
        else scanTame2 c tame fuel (itame + 1)

/-- Lines 178–183 / 392–397: advance the anchor past a run of `qmark`
symbols, moving the text anchor in lock-step. -/
def skipQmarks (qmark : α) (wild : List α) : Nat → Nat → Nat → MResult ⊕ (Nat × Nat)
  | 0, _, _ => .inl .outOfFuel
  | fuel + 1, iws, its =>
    if wild.length ≤ iws then .inr (iws, its)
    else
      match wild[iws]? with
      | none => .inl .oob
      | some c =>
        if c = qmark then skipQmarks qmark wild fuel (iws + 1) (its + 1)
        else .inr (iws, its)

/-- Lines 188–209 / 402–423: the fall-back loop: repeatedly advance the
text anchor by one; succeed or fail if the text ends, stop when the text
symbol equals the pattern symbol at `iwild`. -/
def fallback (wild tame : List α) (iwild : Nat) : Nat → Nat → MResult ⊕ Nat
  | 0, _ => .inl .outOfFuel
  | fuel + 1, its =>
    if tame.length ≤ its + 1 then .inl (.ok (decide (wild.length ≤ iwild)))
    else
      if wild.length ≤ iwild then fallback wild tame iwild fuel (its + 1)
      else
        match wild[iwild]?, tame[its + 1]? with
        | some c, some d =>
          if c = d then .inr (its + 1)
          else fallback wild tame iwild fuel (its + 1)
        | _, _ => .inl .oob

/-- Lines 215–227 / 429–441: the common tail of each lower-loop iteration:
a final end-of-text check, then advance both cursors. -/
def phase2tail (wild tame : List α) (s : MState) : MResult ⊕ MState :=
  if tame.length ≤ s.itame then .inl (.ok (decide (wild.length ≤ s.iwild)))
  else .inr ⟨s.iwild + 1, s.itame + 1, s.iws, s.its⟩

/-- Lines 118–159 / 332–373: the star branch of the lower loop: skip the
star run, fail if the text is exhausted, scan for the next prospective
match unless the next pattern symbol is `qmark`, and overwrite the fallback
anchor with the new cursor pair. -/
def phase2star (star qmark : α) (wild tame : List α) (s : MState) : MResult ⊕ MState :=
  match skipStarRun star wild (wild.length + 1) s.iwild with
  | .inl r => .inl r
  | .inr iwild' =>
    if tame.length ≤ s.itame then .inl (.ok false)
    else
      match wild[iwild']? with
      | none => .inl .oob
      | some c =>
        match (if c = qmark then Sum.inr s.itame
               else scanTame2 c tame (tame.length + 1) s.itame) with
        | .inl r => .inl r
        | .inr itame' => phase2tail wild tame ⟨iwild', itame', iwild', itame'⟩

/-- Lines 177–212 / 391–426: the backtrack: permanently commit any `qmark`
run at the anchor, reset `iwild` to the anchor, run the fall-back loop, and
resume at the advanced anchor. -/
def backtrack (qmark : α) (wild tame : List α) (s : MState) : MResult ⊕ MState :=
  match skipQmarks qmark wild (wild.length + 1) s.iws s.its with
  | .inl r => .inl r
  | .inr (iws', its') =>
    match fallback wild tame iws' (tame.length + 1) its' with
    | .inl r => .inl r
    | .inr its'' => phase2tail wild tame ⟨iws', its'', iws', its''⟩

/-- Lines 160–213 / 374–427: the non-star branch of the lower loop: an
end-of-text check, then either a successful single-symbol comparison or a
backtrack. -/
def phase2else (qmark : α) (wild tame : List α) (s : MState) : MResult ⊕ MState :=
  if tame.length ≤ s.itame then .inl (.ok (decide (wild.length ≤ s.iwild)))
  else if wild.length ≤ s.iwild then backtrack qmark wild tame s
  else
    match wild[s.iwild]?, tame[s.itame]? with
    | some c, some d =>
      if c ≠ d ∧ c ≠ qmark then backtrack qmark wild tame s
      else phase2tail wild tame s
    | _, _ => .inl .oob

/-- Lines 116–228 / 330–442: one full iteration of the lower loop, from the
star test at the top through the common tail.  `.inl r` is a `return r`,
`.inr s'` is the state at the next iteration's top. -/
def phase2step (star qmark : α) (wild tame : List α) (s : MState) : MResult ⊕ MState :=
  if wild.length ≤ s.iwild then phase2else qmark wild tame s
  else
    match wild[s.iwild]? with
    | none => .inl .oob
    | some c =>
      if c = star then phase2star star qmark wild tame s
      else phase2else qmark wild tame s

/-- The lower loop: iterate `phase2step` until it returns. -/
def phase2 (star qmark : α) (wild tame : List α) : Nat → MState → MResult
  | 0, _ => .outOfFuel
  | fuel + 1, s =>
    match phase2step star qmark wild tame s with
    | .inl r => r
    | .inr s' => phase2 star qmark wild tame fuel s'

/-- Lines 37–113 / 251–327: the upper loop: compare pattern and text in
lock-step from the start until the first `star`; on a `star`, set `itame`
to the current position, skip the star run, scan for the first prospective
match, seed the fallback anchor and drop into the lower loop. -/
def phase1 (star qmark : α) (wild tame : List α) (fuel2 : Nat) : Nat → Nat → MResult
  | 0, _ => .outOfFuel
  | fuel + 1, iwild =>
    if tame.length ≤ iwild then
      if wild.length ≤ iwild then .ok true
      else tailStars star wild (wild.length + 1) iwild
    else if wild.length ≤ iwild then .ok false
    else
      match wild[iwild]? with
      | none => .oob
      | some c =>
        if c = star then
          match skipStarRun star wild (wild.length + 1) iwild with
          | .inl r => r
          | .inr iwild' =>
            match wild[iwild']? with
            | none => .oob
            | some c' =>
              match (if c' = qmark then Sum.inr iwild
                     else scanTame1 c' tame (tame.length + 1) iwild) with
              | .inl r => r
              | .inr itame' =>
                phase2 star qmark wild tame fuel2 ⟨iwild', itame', iwild', itame'⟩
        else
          match tame[iwild]? with
          | none => .oob
          | some d =>
            if c ≠ d ∧ c ≠ qmark then .ok false
            else phase1 star qmark wild tame fuel2 fuel (iwild + 1)

/-- Fuel handed to the lower loop; shown sufficient below. -/
def fuelBound (wild tame : List α) : Nat :=
  (tame.length + 1) * (wild.length + 2) + wild.length + 2

/-- The whole machine: run the upper loop from index 0. -/
def fastWildCompareM (star qmark : α) (wild tame : List α) : MResult :=
  phase1 star qmark wild tame (fuelBound wild tame) (wild.length + 1) 0

/-- `fast_wild_compare_ascii` (lines 26–229): the machine over the byte
values of the two `&str` arguments, with `'*' = 42` and `'?' = 63`. -/
def fast_wild_compare_ascii (wild_str tame_str : List Nat) : Bool :=
  match fastWildCompareM 42 63 wild_str tame_str with
  | .ok b => b
  | _ => false

/-- `fast_wild_compare_utf8` (lines 240–443): the machine over slices of
decoded code points. -/
def fast_wild_compare_utf8 (wild_slice tame_slice : List Char) : Bool :=
  match fastWildCompareM '*' '?' wild_slice tame_slice with
  | .ok b => b
  | _ => false

/-- ASCII-range decoding: a byte below 128 decodes to the scalar value with
the same code point (UTF-8 restricted to the ASCII range). -/
def asciiDecode (l : List Nat) : List Char := l.map (fun b => Char.ofNat b)

/-- Element-wise matching of a wildcard-free pattern segment against a text
segment of the same length: each pattern symbol is `qmark` or equals the
text symbol. -/
def SegMatch (qmark : α) : List α → List α → Prop
  | [], [] => True
  | p :: ps, c :: cs => (p = qmark ∨ p = c) ∧ SegMatch qmark ps cs
  | _, _ => False

/-! ## Facts about the reference semantics `rmatch` -/

section RmatchLemmas

variable (star qmark : α)

theorem rmatch_nil_nil : rmatch star qmark [] [] = true := by
  simp [rmatch]

theorem rmatch_nil_cons (c : α) (ts : List α) :
    rmatch star qmark [] (c :: ts) = false := by
  simp [rmatch]

theorem rmatch_star_nil (ps : List α) :
    rmatch star qmark (star :: ps) [] = rmatch star qmark ps [] := by
  simp [rmatch]

theorem rmatch_star_cons (ps : List α) (c : α) (ts : List α) :
    rmatch star qmark (star :: ps) (c :: ts) =
      (rmatch star qmark ps (c :: ts) || rmatch star qmark (star :: ps) ts) := by
  simp [rmatch]

theorem rmatch_lit_nil {p : α} (hp : p ≠ star) (ps : List α) :
    rmatch star qmark (p :: ps) [] = false := by
  simp [rmatch, hp]

theorem rmatch_lit_cons {p : α} (hp : p ≠ star) (ps : List α) (c : α) (ts : List α) :
    rmatch star qmark (p :: ps) (c :: ts) =
      if p = qmark ∨ p = c then rmatch star qmark ps ts else false := by
  simp [rmatch, hp]

theorem rmatch_allstar_nil {p : List α} (h : ∀ c ∈ p, c = star) :
    rmatch star qmark p [] = true := by
  induction p with
  | nil => simp [rmatch]
  | cons c ps ih =>
    have hc : c = star := h c (by simp)
    subst hc
    rw [rmatch_star_nil]
    exact ih fun c hc => h c (by simp [hc])

theorem rmatch_allstar {ps : List α} (h : ∀ c ∈ ps, c = star) (t : List α) :
    rmatch star qmark (star :: ps) t = true := by
  induction t with
  | nil =>
    rw [rmatch_star_nil]
    exact rmatch_allstar_nil star qmark h
  | cons c ts ih =>
    rw [rmatch_star_cons, ih, Bool.or_true]

theorem rmatch_star_congr {a b : List α} (h : ∀ t, rmatch star qmark a t = rmatch star qmark b t)
    (t : List α) : rmatch star qmark (star :: a) t = rmatch star qmark (star :: b) t := by
  induction t with
  | nil => rw [rmatch_star_nil, rmatch_star_nil, h]
  | cons c ts ih => rw [rmatch_star_cons, rmatch_star_cons, h, ih]

theorem rmatch_star_star (z : List α) (t : List α) :
    rmatch star qmark (star :: star :: z) t = rmatch star qmark (star :: z) t := by
  induction t with
  | nil => rw [rmatch_star_nil]
  | cons c ts ih =>
    rw [rmatch_star_cons, ih, rmatch_star_cons]
    cases rmatch star qmark z (c :: ts) <;> simp

theorem rmatch_replicate_star (n : Nat) (z : List α) (t : List α) :
    rmatch star qmark (List.replicate n star ++ star :: z) t =
      rmatch star qmark (star :: z) t := by
  induction n generalizing t with
  | zero => simp
  | succ n ih =>
    have : List.replicate (n + 1) star ++ star :: z =
        star :: (List.replicate n star ++ star :: z) := by
      simp [List.replicate_succ]
    rw [this, rmatch_star_congr star qmark ih, rmatch_star_star]

theorem rmatch_qmark_nil (hsq : star ≠ qmark) (ps : List α) :
    rmatch star qmark (qmark :: ps) [] = false :=
  rmatch_lit_nil star qmark (fun h => hsq h.symm) ps

theorem rmatch_qmark_cons (hsq : star ≠ qmark) (ps : List α) (c : α) (ts : List α) :
    rmatch star qmark (qmark :: ps) (c :: ts) = rmatch star qmark ps ts := by
  rw [rmatch_lit_cons star qmark (fun h => hsq h.symm), if_pos (Or.inl rfl)]

theorem rmatch_qmark_congr (hsq : star ≠ qmark) {a b : List α}
    (h : ∀ t, rmatch star qmark a t = rmatch star qmark b t) (t : List α) :
    rmatch star qmark (qmark :: a) t = rmatch star qmark (qmark :: b) t := by
  cases t with
  | nil => rw [rmatch_qmark_nil star qmark hsq, rmatch_qmark_nil star qmark hsq]
  | cons c ts => rw [rmatch_qmark_cons star qmark hsq, rmatch_qmark_cons star qmark hsq, h]

theorem rmatch_star_qmark (hsq : star ≠ qmark) (z : List α) (t : List α) :
    rmatch star qmark (star :: qmark :: z) t = rmatch star qmark (qmark :: star :: z) t := by
  induction t with
  | nil =>
    rw [rmatch_star_nil, rmatch_qmark_nil star qmark hsq, rmatch_qmark_nil star qmark hsq]
  | cons c ts ih =>
    rw [rmatch_star_cons, ih, rmatch_qmark_cons star qmark hsq,
      rmatch_qmark_cons star qmark hsq]
    cases ts with
    | nil =>
      rw [rmatch_qmark_nil star qmark hsq, rmatch_star_nil, Bool.or_false]
    | cons d ts' =>
      rw [rmatch_qmark_cons star qmark hsq, rmatch_star_cons]

theorem rmatch_star_qmarkrun (hsq : star ≠ qmark) (q : Nat) (z : List α) (t : List α) :
    rmatch star qmark (star :: (List.replicate q qmark ++ z)) t =
      rmatch star qmark (List.replicate q qmark ++ star :: z) t := by
  induction q generalizing t with
  | zero => simp
  | succ q ih =>
    have h1 : List.replicate (q + 1) qmark ++ z =
        qmark :: (List.replicate q qmark ++ z) := by simp [List.replicate_succ]
    have h2 : List.replicate (q + 1) qmark ++ star :: z =
        qmark :: (List.replicate q qmark ++ star :: z) := by simp [List.replicate_succ]
    rw [h1, h2, rmatch_star_qmark star qmark hsq,
      rmatch_qmark_congr star qmark hsq ih]

theorem rmatch_qmarkrun_consume (hsq : star ≠ qmark) (q : Nat) (z : List α) (t : List α) :
    rmatch star qmark (List.replicate q qmark ++ z) t =
      if q ≤ t.length then rmatch star qmark z (t.drop q) else false := by
  induction q generalizing t with
  | zero => simp
  | succ q ih =>
    have h1 : List.replicate (q + 1) qmark ++ z =
        qmark :: (List.replicate q qmark ++ z) := by simp [List.replicate_succ]
    cases t with
    | nil =>
      rw [h1, rmatch_qmark_nil star qmark hsq]
      simp
    | cons c ts =>
      rw [h1, rmatch_qmark_cons star qmark hsq, ih]
      simp [Nat.succ_le_succ_iff]

theorem rmatch_star_iff (z : List α) (t : List α) :
    rmatch star qmark (star :: z) t = true ↔
      ∃ n, rmatch star qmark z (t.drop n) = true := by
  induction t with
  | nil =>
    rw [rmatch_star_nil]
    constructor
    · intro h; exact ⟨0, h⟩
    · rintro ⟨n, h⟩
      simpa using h
  | cons c ts ih =>
    rw [rmatch_star_cons, Bool.or_eq_true, ih]
    constructor
    · rintro (h | ⟨n, h⟩)
      · exact ⟨0, h⟩
      · exact ⟨n + 1, h⟩
    · rintro ⟨n, h⟩
      cases n with
      | zero => exact Or.inl h
      | succ n => exact Or.inr ⟨n, h⟩

theorem rmatch_star_absorb {z : List α} {t : List α} {n : Nat}
    (h : rmatch star qmark (star :: z) (t.drop n) = true) :
    rmatch star qmark (star :: z) t = true := by
  rcases (rmatch_star_iff star qmark z (t.drop n)).mp h with ⟨m, hmatch⟩
  rw [List.drop_drop] at hmatch
  exact (rmatch_star_iff star qmark z t).mpr ⟨n + m, hmatch⟩

omit [DecidableEq α] in
theorem segMatch_length {qmark : α} : ∀ {seg u : List α}, SegMatch qmark seg u →
    seg.length = u.length
  | [], [], _ => rfl
  | [], _ :: _, h => absurd h (by simp [SegMatch])
  | _ :: _, [], h => absurd h (by simp [SegMatch])
  | _ :: ps, _ :: cs, h => by
    simpa [SegMatch] using congrArg Nat.succ (segMatch_length (by exact h.2))

theorem rmatch_seg_append {seg u : List α}
    (hns : ∀ x ∈ seg, x ≠ star) (hm : SegMatch qmark seg u) (z v : List α) :
    rmatch star qmark (seg ++ z) (u ++ v) = rmatch star qmark z v := by
  induction seg generalizing u with
  | nil =>
    cases u with
    | nil => simp
    | cons c cs => exact absurd hm (by simp [SegMatch])
  | cons p ps ih =>
    cases u with
    | nil => exact absurd hm (by simp [SegMatch])
    | cons c cs =>
      have hp : p ≠ star := hns p (by simp)
      obtain ⟨hpc, hm'⟩ : (p = qmark ∨ p = c) ∧ SegMatch qmark ps cs := hm
      rw [List.cons_append, List.cons_append,
        rmatch_lit_cons star qmark hp, if_pos hpc]
      exact ih (fun x hx => hns x (by simp [hx])) hm'

theorem rmatch_starless_iff {seg : List α}
    (hns : ∀ x ∈ seg, x ≠ star) (t : List α) :
    rmatch star qmark seg t = true ↔ SegMatch qmark seg t := by
  induction seg generalizing t with
  | nil =>
    cases t with
    | nil => simp [rmatch_nil_nil, SegMatch]
    | cons c ts => simp [rmatch_nil_cons, SegMatch]
  | cons p ps ih =>
    have hp : p ≠ star := hns p (by simp)
    cases t with
    | nil =>
      rw [rmatch_lit_nil star qmark hp]
      simp [SegMatch]
    | cons c ts =>
      rw [rmatch_lit_cons star qmark hp]
      by_cases hpc : p = qmark ∨ p = c
      · rw [if_pos hpc]
        have := ih (fun x hx => hns x (by simp [hx])) ts
        simpa [SegMatch, hpc] using this
      · rw [if_neg hpc]
        simp [SegMatch, hpc]

theorem rmatch_starless_split {seg : List α}
    (hns : ∀ x ∈ seg, x ≠ star) (z t : List α)
    (h : rmatch star qmark (seg ++ z) t = true) :
    ∃ u v, t = u ++ v ∧ SegMatch qmark seg u ∧ rmatch star qmark z v = true := by
  induction seg generalizing t with
  | nil => exact ⟨[], t, rfl, trivial, by simpa using h⟩
  | cons p ps ih =>
    have hp : p ≠ star := hns p (by simp)
    cases t with
    | nil =>
      rw [List.cons_append, rmatch_lit_nil star qmark hp] at h
      exact absurd h (by simp)
    | cons c ts =>
      rw [List.cons_append, rmatch_lit_cons star qmark hp] at h
      by_cases hpc : p = qmark ∨ p = c
      · rw [if_pos hpc] at h
        obtain ⟨u, v, hsplit, hm, hz⟩ := ih (fun x hx => hns x (by simp [hx])) ts h
        exact ⟨c :: u, v, by simp [hsplit], ⟨hpc, hm⟩, hz⟩
      · rw [if_neg hpc] at h
        exact absurd h (by simp)

/-- A mismatching text symbol in front of `star :: c :: z` (with `c` a
literal) can only be absorbed by the star. -/
theorem rmatch_lit_skip {c : α} (hcs : c ≠ star) (hcq : c ≠ qmark) {d : α}
    (hne : d ≠ c) (z : List α) (ts : List α) :
    rmatch star qmark (star :: c :: z) (d :: ts) = rmatch star qmark (star :: c :: z) ts := by
  rw [rmatch_star_cons, rmatch_lit_cons star qmark hcs,
    if_neg (by rintro (h | h) <;> [exact hcq h; exact hne h.symm]), Bool.false_or]

/-- If the literal `c` occurs nowhere in the text, `star :: c :: z` cannot
match. -/
theorem rmatch_lit_gone {c : α} (hcs : c ≠ star) (hcq : c ≠ qmark) (z : List α)
    {t : List α} (h : ∀ d ∈ t, d ≠ c) :
    rmatch star qmark (star :: c :: z) t = false := by
  induction t with
  | nil =>
    rw [rmatch_star_nil, rmatch_lit_nil star qmark hcs]
  | cons d ts ih =>
    rw [rmatch_lit_skip star qmark hcs hcq (h d (by simp)) z ts]
    exact ih fun d hd => h d (by simp [hd])

/-- A wildcard-free pattern segment longer than the whole text cannot
match, whatever follows it. -/
theorem rmatch_starless_short {seg : List α} (hns : ∀ x ∈ seg, x ≠ star)
    (z : List α) {t : List α} (hlen : t.length < seg.length) :
    rmatch star qmark (seg ++ z) t = false := by
  cases hb : rmatch star qmark (seg ++ z) t with
  | false => rfl
  | true =>
    exfalso
    obtain ⟨u, v, hsplit, hm, _⟩ := rmatch_starless_split star qmark hns z t hb
    have h1 := segMatch_length hm
    have h2 := congrArg List.length hsplit
    simp at h2
    omega

/-- The first-fit exchange: once a wildcard-free segment has matched at the
current alignment, re-anchoring just after it loses no matches. -/
theorem rmatch_star_seg_absorb {seg u : List α} (hns : ∀ x ∈ seg, x ≠ star)
    (hm : SegMatch qmark seg u) (z v : List α) :
    rmatch star qmark (star :: (seg ++ star :: z)) (u ++ v) =
      rmatch star qmark (star :: z) v := by
  have hul : seg.length = u.length := segMatch_length hm
  apply Bool.eq_iff_iff.mpr
  constructor
  · intro h
    rcases (rmatch_star_iff star qmark _ _).mp h with ⟨n, h1⟩
    obtain ⟨u', v', hsplit, hm', hz⟩ := rmatch_starless_split star qmark hns _ _ h1
    have hul' : seg.length = u'.length := segMatch_length hm'
    have hv' : v' = (u ++ v).drop (n + u'.length) := by
      have : (u' ++ v').drop u'.length = v' := List.drop_left u' v'
      rw [← this, ← hsplit, List.drop_drop]
    have hvdrop : v' = v.drop (n + u'.length - u.length) := by
      rw [hv', List.drop_append_eq_append_drop, List.drop_of_length_le (by omega)]
      simp
    exact rmatch_star_absorb star qmark (hvdrop ▸ hz)
  · intro h
    refine (rmatch_star_iff star qmark _ _).mpr ⟨0, ?_⟩
    rw [List.drop_zero, rmatch_seg_append star qmark hns hm (star :: z) v]
    exact h

end RmatchLemmas

/-! ## List index utilities -/

omit [DecidableEq α] in
/-- A stretch of positions all holding the value `v` is a `replicate` run in
front of the rest. -/
theorem drop_eq_replicate_append_aux {l : List α} {v : α} :
    ∀ (k i : Nat), i + k ≤ l.length → (∀ m, i ≤ m → m < i + k → l[m]? = some v) →
    l.drop i = List.replicate k v ++ l.drop (i + k) := by
  intro k
  induction k with
  | zero => simp
  | succ k ih =>
    intro i hk h
    have hi : i < l.length := by omega
    have hiv : l[i]? = some v := h i (Nat.le_refl _) (by omega)
    have hlv : l[i] = v := by
      rw [List.getElem?_eq_getElem hi] at hiv
      exact Option.some_injective _ hiv
    rw [List.drop_eq_getElem_cons hi, hlv, List.replicate_succ, List.cons_append]
    have := ih (i + 1) (by omega) (fun m hm1 hm2 => h m (by omega) (by omega))
    rw [this, show i + 1 + k = i + (k + 1) from by omega]

omit [DecidableEq α] in
theorem drop_eq_replicate_append {l : List α} {v : α} {i j : Nat}
    (hij : i ≤ j) (hj : j ≤ l.length)
    (h : ∀ m, i ≤ m → m < j → l[m]? = some v) :
    l.drop i = List.replicate (j - i) v ++ l.drop j := by
  have := drop_eq_replicate_append_aux (j - i) i (by omega)
    (fun m hm1 hm2 => h m hm1 (by omega))
  rwa [show i + (j - i) = j from by omega] at this

omit [DecidableEq α] in
/-- Build a `SegMatch` between two index windows from a pointwise
hypothesis. -/
theorem segMatch_of_pointwise {qmark : α} {w t : List α} {a b : Nat} (k : Nat)
    (hk1 : a + k ≤ w.length) (hk2 : b + k ≤ t.length)
    (h : ∀ j, j < k → w[a + j]? = some qmark ∨ w[a + j]? = t[b + j]?) :
    SegMatch qmark ((w.drop a).take k) ((t.drop b).take k) := by
  induction k generalizing a b with
  | zero => exact trivial
  | succ k ih =>
    have ha : a < w.length := by omega
    have hb : b < t.length := by omega
    rw [List.drop_eq_getElem_cons ha, List.drop_eq_getElem_cons hb,
      List.take_succ_cons, List.take_succ_cons]
    have h0 := h 0 (by omega)
    simp only [Nat.add_zero] at h0
    refine ⟨?_, ?_⟩
    · rcases h0 with h0 | h0
      · left
        rw [List.getElem?_eq_getElem ha] at h0
        exact Option.some_injective _ h0
      · right
        rw [List.getElem?_eq_getElem ha, List.getElem?_eq_getElem hb] at h0
        exact Option.some_injective _ h0
    · exact ih (by omega) (by omega) fun j hj => by
        have := h (j + 1) (by omega)
        rwa [show a + (j + 1) = a + 1 + j from by omega,
          show b + (j + 1) = b + 1 + j from by omega] at this

omit [DecidableEq α] in
/-- Transfer a pointwise no-`star` hypothesis to the members of an index
window. -/
theorem mem_window_ne {w : List α} {star : α} {a : Nat} (k : Nat)
    (h : ∀ m, a ≤ m → m < a + k → w[m]? ≠ some star) :
    ∀ x ∈ (w.drop a).take k, x ≠ star := by
  induction k generalizing a with
  | zero => simp
  | succ k ih =>
    intro x hx
    by_cases ha : a < w.length
    · rw [List.drop_eq_getElem_cons ha, List.take_succ_cons] at hx
      rcases List.mem_cons.mp hx with hx | hx
      · subst hx
        intro hcon
        exact h a (Nat.le_refl _) (by omega) (by rw [List.getElem?_eq_getElem ha, hcon])
      · exact ih (fun m hm1 hm2 => h m (by omega) (by omega)) x hx
    · rw [List.drop_of_length_le (by omega)] at hx
      simp at hx

/-! ## Behaviour of the translated inner loops -/

section HelperSpecs

variable (star qmark : α)

theorem tailStars_spec (wild : List α) :
    ∀ fuel iwild, wild.length - iwild < fuel → iwild < wild.length →
      tailStars star wild fuel iwild = .ok (rmatch star qmark (wild.drop iwild) []) := by
  intro fuel
  induction fuel with
  | zero => intro iwild h; omega
  | succ fuel ih =>
    intro iwild hfuel hi
    have hread : wild[iwild]? = some wild[iwild] := List.getElem?_eq_getElem hi
    rw [List.drop_eq_getElem_cons hi]
    by_cases hc : wild[iwild] = star
    · rw [hc, rmatch_star_nil]
      by_cases hend : wild.length ≤ iwild + 1
      · rw [List.drop_of_length_le hend, rmatch_nil_nil]
        simp [tailStars, hread, hc, hend]
      · rw [← ih (iwild + 1) (by omega) (by omega)]
        simp [tailStars, hread, hc, hend]
    · rw [rmatch_lit_nil star qmark hc]
      simp [tailStars, hread, hc]

theorem skipStarRun_spec (wild : List α) :
    ∀ fuel iwild, wild.length - iwild < fuel →
      (∃ j, skipStarRun star wild fuel iwild = .inr j ∧ iwild < j ∧ j < wild.length ∧
          wild[j]? ≠ some star ∧ ∀ m, iwild < m → m < j → wild[m]? = some star)
      ∨ (skipStarRun star wild fuel iwild = .inl (.ok true) ∧
          ∀ m, iwild < m → m < wild.length → wild[m]? = some star) := by
  intro fuel
  induction fuel with
  | zero => intro iwild h; omega
  | succ fuel ih =>
    intro iwild hfuel
    by_cases hend : wild.length ≤ iwild + 1
    · right
      refine ⟨by simp [skipStarRun, hend], ?_⟩
      intro m h1 h2; omega
    · have hlt : iwild + 1 < wild.length := by omega
      have hread : wild[iwild + 1]? = some wild[iwild + 1] := List.getElem?_eq_getElem hlt
      by_cases hc : wild[iwild + 1] = star
      · rcases ih (iwild + 1) (by omega) with ⟨j, heq, hj1, hj2, hj3, hj4⟩ | ⟨heq, hall⟩
        · left
          refine ⟨j, ?_, by omega, hj2, hj3, ?_⟩
          · simp [skipStarRun, hend, hread, hc]; exact heq
          · intro m h1 h2
            rcases Nat.lt_or_ge iwild (m - 1) with hm | hm
            · exact hj4 m (by omega) h2
            · have : m = iwild + 1 := by omega
              subst this
              rw [hread, hc]
        · right
          refine ⟨?_, ?_⟩
          · simp [skipStarRun, hend, hread, hc]; exact heq
          · intro m h1 h2
            rcases Nat.lt_or_ge iwild (m - 1) with hm | hm
            · exact hall m (by omega) h2
            · have : m = iwild + 1 := by omega
              subst this
              rw [hread, hc]
      · left
        refine ⟨iwild + 1, by simp [skipStarRun, hend, hread, hc], by omega, hlt, ?_, ?_⟩
        · rw [hread]
          simp [hc]
        · intro m h1 h2; omega

theorem scanTame1_spec (c : α) (tame : List α) :
    ∀ fuel itame, tame.length - itame < fuel → itame < tame.length →
      (∃ j, scanTame1 c tame fuel itame = .inr j ∧ itame ≤ j ∧ j < tame.length ∧
          tame[j]? = some c ∧ ∀ m, itame ≤ m → m < j → tame[m]? ≠ some c)
      ∨ (scanTame1 c tame fuel itame = .inl (.ok false) ∧
          ∀ m, itame ≤ m → m < tame.length → tame[m]? ≠ some c) := by
  intro fuel
  induction fuel with
  | zero => intro itame h; omega
  | succ fuel ih =>
    intro itame hfuel hi
    have hread : tame[itame]? = some tame[itame] := List.getElem?_eq_getElem hi
    by_cases hc : c = tame[itame]
    · left
      refine ⟨itame, by simp [scanTame1, hread, hc], Nat.le_refl _, hi, ?_, ?_⟩
      · rw [hread, hc]
      · intro m h1 h2; omega
    · by_cases hend : tame.length ≤ itame + 1
      · right
        refine ⟨by simp [scanTame1, hread, hc, hend], ?_⟩
        intro m h1 h2
        have : m = itame := by omega
        subst this
        rw [hread]
        simp
        intro h
        exact hc h.symm
      · rcases ih (itame + 1) (by omega) (by omega) with
          ⟨j, heq, hj1, hj2, hj3, hj4⟩ | ⟨heq, hall⟩
        · left
          refine ⟨j, ?_, by omega, hj2, hj3, ?_⟩
          · simp [scanTame1, hread, hc, hend]; exact heq
          · intro m h1 h2
            rcases Nat.lt_or_ge m (itame + 1) with hm | hm
            · have : m = itame := by omega
              subst this
              rw [hread]
              simp
              intro h
              exact hc h.symm
            · exact hj4 m hm h2
        · right
          refine ⟨?_, ?_⟩
          · simp [scanTame1, hread, hc, hend]; exact heq
          · intro m h1 h2
            rcases Nat.lt_or_ge m (itame + 1) with hm | hm
            · have : m = itame := by omega
              subst this
              rw [hread]
              simp
              intro h
              exact hc h.symm
            · exact hall m hm h2

theorem scanTame2_spec (c : α) (tame : List α) :
    ∀ fuel itame, tame.length - itame < fuel → itame < tame.length →
      (∃ j, scanTame2 c tame fuel itame = .inr j ∧ itame ≤ j ∧ j < tame.length ∧
          tame[j]? = some c ∧ ∀ m, itame ≤ m → m < j → tame[m]? ≠ some c)
      ∨ (scanTame2 c tame fuel itame = .inl (.ok false) ∧
          ∀ m, itame ≤ m → m < tame.length → tame[m]? ≠ some c) := by
  intro fuel
  induction fuel with
  | zero => intro itame h; omega
  | succ fuel ih =>
    intro itame hfuel hi
    have hni : ¬ tame.length ≤ itame := by omega
    have hread : tame[itame]? = some tame[itame] := List.getElem?_eq_getElem hi
    by_cases hc : c = tame[itame]
    · left
      refine ⟨itame, by simp [scanTame2, hni, hread, hc], Nat.le_refl _, hi, ?_, ?_⟩
      · rw [hread, hc]
      · intro m h1 h2; omega
    · by_cases hend : tame.length ≤ itame + 1
      · right
        refine ⟨by simp [scanTame2, hni, hread, hc, hend], ?_⟩
        intro m h1 h2
        have : m = itame := by omega
        subst this
        rw [hread]
        simp
        intro h
        exact hc h.symm
      · rcases ih (itame + 1) (by omega) (by omega) with
          ⟨j, heq, hj1, hj2, hj3, hj4⟩ | ⟨heq, hall⟩
        · left
          refine ⟨j, ?_, by omega, hj2, hj3, ?_⟩
          · simp [scanTame2, hni, hread, hc, hend]; exact heq
          · intro m h1 h2
            rcases Nat.lt_or_ge m (itame + 1) with hm | hm
            · have : m = itame := by omega
              subst this
              rw [hread]
              simp
              intro h
              exact hc h.symm
            · exact hj4 m hm h2
        · right
          refine ⟨?_, ?_⟩
          · simp [scanTame2, hni, hread, hc, hend]; exact heq
          · intro m h1 h2
            rcases Nat.lt_or_ge m (itame + 1) with hm | hm
            · have : m = itame := by omega
              subst this
              rw [hread]
              simp
              intro h
              exact hc h.symm
            · exact hall m hm h2

theorem skipQmarks_spec (wild : List α) :
    ∀ fuel iws its, wild.length - iws < fuel → iws ≤ wild.length →
      ∃ j, skipQmarks qmark wild fuel iws its = .inr (j, its + (j - iws)) ∧
        iws ≤ j ∧ j ≤ wild.length ∧
        (∀ m, iws ≤ m → m < j → wild[m]? = some qmark) ∧
        (wild.length ≤ j ∨ wild[j]? ≠ some qmark) := by
  intro fuel
  induction fuel with
  | zero => intro iws its h; omega
  | succ fuel ih =>
    intro iws its hfuel hin
    by_cases hend : wild.length ≤ iws
    · refine ⟨iws, ?_, Nat.le_refl _, hin, ?_, Or.inl hend⟩
      · rw [show its + (iws - iws) = its from by omega]
        simp [skipQmarks, hend]
      · intro m h1 h2; omega
    · have hi : iws < wild.length := by omega
      have hread : wild[iws]? = some wild[iws] := List.getElem?_eq_getElem hi
      by_cases hc : wild[iws] = qmark
      · obtain ⟨j, heq, hj1, hj2, hj3, hj4⟩ := ih (iws + 1) (its + 1) (by omega) (by omega)
        refine ⟨j, ?_, by omega, hj2, ?_, hj4⟩
        · rw [show its + (j - iws) = its + 1 + (j - (iws + 1)) from by omega]
          simp [skipQmarks, hend, hread, hc]
          exact heq
        · intro m h1 h2
          rcases Nat.lt_or_ge m (iws + 1) with hm | hm
          · have : m = iws := by omega
            subst this
            rw [hread, hc]
          · exact hj3 m hm h2
      · refine ⟨iws, ?_, Nat.le_refl _, by omega, ?_, ?_⟩
        · rw [show its + (iws - iws) = its from by omega]
          simp [skipQmarks, hend, hread, hc]
        · intro m h1 h2; omega
        · right
          rw [hread]
          simp [hc]

theorem fallback_spec_long (wild tame : List α) (iwild : Nat)
    (hw : wild.length ≤ iwild) :
    ∀ fuel its, tame.length - its < fuel →
      fallback wild tame iwild fuel its = .inl (.ok true) := by
  intro fuel
  induction fuel with
  | zero => intro its h; omega
  | succ fuel ih =>
    intro its hfuel
    by_cases hend : tame.length ≤ its + 1
    · simp [fallback, hend, hw]
    · have := ih (its + 1) (by omega)
      simp [fallback, hend, hw]
      exact this

theorem fallback_spec_scan (wild tame : List α) (iwild : Nat)
    (hw : iwild < wild.length) :
    ∀ fuel its, tame.length - its < fuel →
      (∃ j, fallback wild tame iwild fuel its = .inr j ∧ its < j ∧ j < tame.length ∧
          tame[j]? = wild[iwild]? ∧ ∀ m, its < m → m < j → tame[m]? ≠ wild[iwild]?)
      ∨ (fallback wild tame iwild fuel its = .inl (.ok false) ∧
          ∀ m, its < m → m < tame.length → tame[m]? ≠ wild[iwild]?) := by
  intro fuel
  induction fuel with
  | zero => intro its h; omega
  | succ fuel ih =>
    intro its hfuel
    have hreadw : wild[iwild]? = some wild[iwild] := List.getElem?_eq_getElem hw
    have hnw : ¬ wild.length ≤ iwild := by omega
    by_cases hend : tame.length ≤ its + 1
    · right
      constructor
      · simp [fallback, hend, hnw]
      · intro m h1 h2; omega
    · have hlt : its + 1 < tame.length := by omega
      have hreadt : tame[its + 1]? = some tame[its + 1] := List.getElem?_eq_getElem hlt
      by_cases hc : wild[iwild] = tame[its + 1]
      · left
        refine ⟨its + 1, ?_, by omega, hlt, ?_, ?_⟩
        · simp [fallback, hend, hnw, hreadw, hreadt, hc]
        · rw [hreadt, hreadw, hc]
        · intro m h1 h2; omega
      · rcases ih (its + 1) (by omega) with ⟨j, heq, hj1, hj2, hj3, hj4⟩ | ⟨heq, hall⟩
        · left
          refine ⟨j, ?_, by omega, hj2, hj3, ?_⟩
          · simp [fallback, hend, hnw, hreadw, hreadt, hc]; exact heq
          · intro m h1 h2
            rcases Nat.lt_or_ge m (its + 2) with hm | hm
            · have : m = its + 1 := by omega
              subst this
              rw [hreadt, hreadw]
              simp
              intro h
              exact hc h.symm
            · exact hj4 m (by omega) h2
        · right
          refine ⟨?_, ?_⟩
          · simp [fallback, hend, hnw, hreadw, hreadt, hc]; exact heq
          · intro m h1 h2
            rcases Nat.lt_or_ge m (its + 2) with hm | hm
            · have : m = its + 1 := by omega
              subst this
              rw [hreadt, hreadw]
              simp
              intro h
              exact hc h.symm
            · exact hall m (by omega) h2

end HelperSpecs

/-! ## The lower-loop invariant -/

/-- Invariant at the top of each lower-loop iteration: the cursors are in
range, the stretch of pattern between the anchor `iws` and the cursor
`iwild` is star-free and has matched the stretch of text between `its` and
`itame` position by position, and the anchor does not sit on a `star`. -/
structure Inv (star qmark : α) (wild tame : List α) (s : MState) : Prop where
  hws : s.iws ≤ s.iwild
  hwl : s.iwild ≤ wild.length
  hts : s.its ≤ s.itame
  htl : s.itame ≤ tame.length
  hk : s.iwild - s.iws = s.itame - s.its
  hseg : ∀ j, s.iws + j < s.iwild →
    wild[s.iws + j]? = some qmark ∨ wild[s.iws + j]? = tame[s.its + j]?
  hnostar : ∀ m, s.iws ≤ m → m < s.iwild → wild[m]? ≠ some star
  hanchor : wild[s.iws]? ≠ some star

/-- Termination measure of the lower loop: lexicographic in
(text anchor, pattern cursor), flattened. -/
def meas (wild tame : List α) (s : MState) : Nat :=
  (tame.length + 1 - s.its) * (wild.length + 2) + (wild.length + 1 - s.iwild)

omit [DecidableEq α] in
theorem meas_lt_fuelBound (wild tame : List α) (s : MState) :
    meas wild tame s < fuelBound wild tame := by
  unfold meas fuelBound
  have h1 : tame.length + 1 - s.its ≤ tame.length + 1 := by omega
  have h2 := Nat.mul_le_mul_right (wild.length + 2) h1
  omega

theorem meas_step_lt {W T its its' iw iw' : Nat} (h1 : its < its') (h2 : its' ≤ T + 1)
    (h3 : iw' ≤ W + 1) :
    (T + 1 - its') * (W + 2) + (W + 1 - iw') < (T + 1 - its) * (W + 2) + (W + 1 - iw) := by
  have ha : T + 1 - its' + 1 ≤ T + 1 - its := by omega
  calc (T + 1 - its') * (W + 2) + (W + 1 - iw')
      < (T + 1 - its') * (W + 2) + (W + 2) := by omega
    _ = (T + 1 - its' + 1) * (W + 2) := by ring
    _ ≤ (T + 1 - its) * (W + 2) := Nat.mul_le_mul_right _ ha
    _ ≤ (T + 1 - its) * (W + 2) + (W + 1 - iw) := Nat.le_add_right _ _

omit [DecidableEq α] in
/-- The invariant for a freshly re-anchored state whose single matched
position is `(a, b)`. -/
theorem inv_fresh {star qmark : α} {wild tame : List α} {a b : Nat}
    (ha : a < wild.length) (hb : b < tame.length)
    (hmatch : wild[a]? = some qmark ∨ wild[a]? = tame[b]?)
    (hns : wild[a]? ≠ some star) :
    Inv star qmark wild tame ⟨a + 1, b + 1, a, b⟩ := by
  refine ⟨?_, ?_, ?_, ?_, ?_, ?_, ?_, ?_⟩
  · show a ≤ a + 1
    omega
  · show a + 1 ≤ wild.length
    omega
  · show b ≤ b + 1
    omega
  · show b + 1 ≤ tame.length
    omega
  · show a + 1 - a = b + 1 - b
    omega
  · show ∀ j, a + j < a + 1 → wild[a + j]? = some qmark ∨ wild[a + j]? = tame[b + j]?
    intro j hj
    have : j = 0 := by omega
    subst this
    simpa using hmatch
  · show ∀ m, a ≤ m → m < a + 1 → wild[m]? ≠ some star
    intro m hm1 hm2
    have : m = a := by omega
    subst this
    exact hns
  · exact hns

omit [DecidableEq α] in
/-- The invariant for a state entering the lower loop right at the anchor
(no position matched yet). -/
theorem inv_entry {star qmark : α} {wild tame : List α} {a b : Nat}
    (ha : a ≤ wild.length) (hb : b ≤ tame.length)
    (hns : wild[a]? ≠ some star) :
    Inv star qmark wild tame ⟨a, b, a, b⟩ := by
  refine ⟨Nat.le_refl _, ha, Nat.le_refl _, hb, by show a - a = b - b; omega, ?_, ?_, hns⟩
  · show ∀ j, a + j < a → _
    intro j hj
    omega
  · show ∀ m, a ≤ m → m < a → _
    intro m hm1 hm2
    omega

omit [DecidableEq α] in
/-- Extending the matched window by one successfully compared position. -/
theorem inv_extend {star qmark : α} {wild tame : List α} {s : MState}
    (hI : Inv star qmark wild tame s)
    (hiw : s.iwild < wild.length) (hit : s.itame < tame.length)
    (hmatch : wild[s.iwild]? = some qmark ∨ wild[s.iwild]? = tame[s.itame]?)
    (hns : wild[s.iwild]? ≠ some star) :
    Inv star qmark wild tame ⟨s.iwild + 1, s.itame + 1, s.iws, s.its⟩ := by
  obtain ⟨h1, h2, h3, h4, h5, h6, h7, h8⟩ := hI
  refine ⟨?_, ?_, ?_, ?_, ?_, ?_, ?_, ?_⟩
  · show s.iws ≤ s.iwild + 1
    omega
  · show s.iwild + 1 ≤ wild.length
    omega
  · show s.its ≤ s.itame + 1
    omega
  · show s.itame + 1 ≤ tame.length
    omega
  · show s.iwild + 1 - s.iws = s.itame + 1 - s.its
    omega
  · show ∀ j, s.iws + j < s.iwild + 1 →
      wild[s.iws + j]? = some qmark ∨ wild[s.iws + j]? = tame[s.its + j]?
    intro j hj
    rcases Nat.lt_or_ge (s.iws + j) s.iwild with hlt | hge
    · exact h6 j hlt
    · have hj1 : s.iws + j = s.iwild := by omega
      have hj2 : s.its + j = s.itame := by omega
      rw [hj1, hj2]
      exact hmatch
  · show ∀ m, s.iws ≤ m → m < s.iwild + 1 → wild[m]? ≠ some star
    intro m hm1 hm2
    rcases Nat.lt_or_ge m s.iwild with hlt | hge
    · exact h7 m hm1 hlt
    · have : m = s.iwild := by omega
      subst this
      exact hns
  · exact h8

section CoreProof

variable (star qmark : α)

/-- A star followed by a star run collapses. -/
theorem rmatch_star_rep (n : Nat) (z : List α) (t : List α) :
    rmatch star qmark (star :: (List.replicate n star ++ z)) t =
      rmatch star qmark (star :: z) t := by
  have h : star :: (List.replicate n star ++ z) = List.replicate n star ++ star :: z := by
    rw [← List.cons_append, ← List.replicate_succ, List.replicate_succ']
    simp
  rw [h, rmatch_replicate_star]

/-- Skipping text symbols different from the scanned-for literal `c`
preserves the value of a `star`-anchored match. -/
theorem rmatch_scan_skip_aux {c : α} (hcs : c ≠ star) (hcq : c ≠ qmark)
    (z : List α) (tame : List α) :
    ∀ (k a : Nat), a + k ≤ tame.length →
      (∀ m, a ≤ m → m < a + k → tame[m]? ≠ some c) →
      rmatch star qmark (star :: c :: z) (tame.drop a) =
        rmatch star qmark (star :: c :: z) (tame.drop (a + k)) := by
  intro k
  induction k with
  | zero => intro a _ _; rw [Nat.add_zero]
  | succ k ih =>
    intro a hk h
    have ha : a < tame.length := by omega
    have hne : tame[a] ≠ c := by
      intro hcon
      exact h a (Nat.le_refl _) (by omega) (by rw [List.getElem?_eq_getElem ha, hcon])
    rw [List.drop_eq_getElem_cons ha, rmatch_lit_skip star qmark hcs hcq hne,
      ih (a + 1) (by omega) (fun m hm1 hm2 => h m (by omega) (by omega)),
      show a + 1 + k = a + (k + 1) from by omega]

theorem rmatch_scan_skip {c : α} (hcs : c ≠ star) (hcq : c ≠ qmark)
    (z : List α) (tame : List α) {a b : Nat} (hab : a ≤ b) (hb : b ≤ tame.length)
    (h : ∀ m, a ≤ m → m < b → tame[m]? ≠ some c) :
    rmatch star qmark (star :: c :: z) (tame.drop a) =
      rmatch star qmark (star :: c :: z) (tame.drop b) := by
  have := rmatch_scan_skip_aux star qmark hcs hcq z tame (b - a) a (by omega)
    (fun m hm1 hm2 => h m hm1 (by omega))
  rwa [show a + (b - a) = b from by omega] at this

omit [DecidableEq α] in
/-- Decomposition of the pattern and text around the matched window that
the invariant describes. -/
theorem inv_splits {wild tame : List α} {s : MState}
    (hI : Inv star qmark wild tame s) :
    wild.drop s.iws =
        (wild.drop s.iws).take (s.iwild - s.iws) ++ wild.drop s.iwild ∧
    tame.drop s.its =
        (tame.drop s.its).take (s.iwild - s.iws) ++ tame.drop s.itame ∧
    SegMatch qmark ((wild.drop s.iws).take (s.iwild - s.iws))
        ((tame.drop s.its).take (s.iwild - s.iws)) ∧
    (∀ x ∈ (wild.drop s.iws).take (s.iwild - s.iws), x ≠ star) := by
  obtain ⟨h1, h2, h3, h4, h5, h6, h7, _⟩ := hI
  refine ⟨?_, ?_, ?_, ?_⟩
  · have hd : (wild.drop s.iws).drop (s.iwild - s.iws) = wild.drop s.iwild := by
      rw [List.drop_drop, show s.iws + (s.iwild - s.iws) = s.iwild from by omega]
    calc wild.drop s.iws
        = (wild.drop s.iws).take (s.iwild - s.iws) ++
            (wild.drop s.iws).drop (s.iwild - s.iws) :=
          (List.take_append_drop _ _).symm
      _ = (wild.drop s.iws).take (s.iwild - s.iws) ++ wild.drop s.iwild := by rw [hd]
  · have hd : (tame.drop s.its).drop (s.iwild - s.iws) = tame.drop s.itame := by
      rw [List.drop_drop, show s.its + (s.iwild - s.iws) = s.itame from by omega]
    calc tame.drop s.its
        = (tame.drop s.its).take (s.iwild - s.iws) ++
            (tame.drop s.its).drop (s.iwild - s.iws) :=
          (List.take_append_drop _ _).symm
      _ = (tame.drop s.its).take (s.iwild - s.iws) ++ tame.drop s.itame := by rw [hd]
  · exact segMatch_of_pointwise (s.iwild - s.iws) (by omega) (by omega)
      (fun j hj => h6 j (by omega))
  · exact mem_window_ne (s.iwild - s.iws) (fun m hm1 hm2 => h7 m hm1 (by omega))

/-- Value of the machine's end-of-text exit, against the reference
semantics. -/
theorem exit_value {wild tame : List α} {s : MState}
    (hI : Inv star qmark wild tame s)
    (hit : tame.length ≤ s.itame)
    (hns : wild.length ≤ s.iwild ∨ wild[s.iwild]? ≠ some star) :
    MResult.ok (decide (wild.length ≤ s.iwild)) =
      .ok (rmatch star qmark (star :: wild.drop s.iws) (tame.drop s.its)) := by
  obtain ⟨hw_split, ht_split, hsm, hsl⟩ := inv_splits star qmark hI
  obtain ⟨h1, h2, h3, h4, h5, h6, h7, h8⟩ := hI
  have hitame : s.itame = tame.length := by omega
  have hulen : ((tame.drop s.its).take (s.iwild - s.iws)).length = s.iwild - s.iws := by
    simp
    omega
  have ht_all : tame.drop s.its = (tame.drop s.its).take (s.iwild - s.iws) := by
    rw [List.take_of_length_le]
    simp
    omega
  by_cases hwl : wild.length ≤ s.iwild
  · have hiwild : s.iwild = wild.length := by omega
    have hwseg : wild.drop s.iws = (wild.drop s.iws).take (s.iwild - s.iws) := by
      conv_lhs => rw [hw_split]
      rw [List.drop_of_length_le hwl, List.append_nil]
    rw [decide_eq_true hwl]
    congr 1
    have : rmatch star qmark (star :: wild.drop s.iws) (tame.drop s.its) = true := by
      refine (rmatch_star_iff star qmark _ _).mpr ⟨0, ?_⟩
      rw [List.drop_zero, hwseg, ht_all]
      exact (rmatch_starless_iff star qmark hsl _).mpr hsm
    rw [this]
  · have hiwlt : s.iwild < wild.length := by omega
    rcases hns with hns | hns
    · omega
    · have hread : wild[s.iwild]? = some wild[s.iwild] := List.getElem?_eq_getElem hiwlt
      have hcs : wild[s.iwild] ≠ star := by
        intro hcon
        exact hns (by rw [hread, hcon])
      rw [decide_eq_false hwl]
      have hw2 : wild.drop s.iwild = wild[s.iwild] :: wild.drop (s.iwild + 1) :=
        List.drop_eq_getElem_cons hiwlt
      have hsl' : ∀ x ∈ (wild.drop s.iws).take (s.iwild - s.iws) ++ [wild[s.iwild]],
          x ≠ star := by
        intro x hx
        rcases List.mem_append.mp hx with hx | hx
        · exact hsl x hx
        · simp at hx
          subst hx
          exact hcs
      have hlen2 : ((wild.drop s.iws).take (s.iwild - s.iws) ++ [wild[s.iwild]]).length =
          s.iwild - s.iws + 1 := by
        simp
        omega
      congr 1
      cases hb : rmatch star qmark (star :: wild.drop s.iws) (tame.drop s.its) with
      | false => rfl
      | true =>
        exfalso
        rcases (rmatch_star_iff star qmark _ _).mp hb with ⟨n, hn⟩
        rw [hw_split, hw2,
          show (wild.drop s.iws).take (s.iwild - s.iws) ++
              (wild[s.iwild] :: wild.drop (s.iwild + 1)) =
            ((wild.drop s.iws).take (s.iwild - s.iws) ++ [wild[s.iwild]]) ++
              wild.drop (s.iwild + 1) from by simp] at hn
        rw [rmatch_starless_short star qmark hsl' _ ?_] at hn
        · exact Bool.false_ne_true hn
        · rw [hlen2]
          have := List.length_drop n (tame.drop s.its)
          have := List.length_drop s.its tame
          omega

/-- Correctness of the star branch of the lower loop. -/
theorem phase2star_correct {wild tame : List α} {s : MState}
    (hI : Inv star qmark wild tame s)
    (hstar : wild[s.iwild]? = some star) :
    (∀ r, phase2star star qmark wild tame s = .inl r →
        r = .ok (rmatch star qmark (star :: wild.drop s.iws) (tame.drop s.its))) ∧
    (∀ s', phase2star star qmark wild tame s = .inr s' →
        Inv star qmark wild tame s' ∧ meas wild tame s' < meas wild tame s ∧
        s.its ≤ s'.its ∧
        rmatch star qmark (star :: wild.drop s'.iws) (tame.drop s'.its) =
          rmatch star qmark (star :: wild.drop s.iws) (tame.drop s.its)) := by
  obtain ⟨hw_split, ht_split, hsm, hsl⟩ := inv_splits star qmark hI
  obtain ⟨h1, h2, h3, h4, h5, h6, h7, h8⟩ := hI
  have hiw_lt : s.iwild < wild.length := by
    by_contra h
    rw [List.getElem?_eq_none (by omega)] at hstar
    exact Option.noConfusion hstar
  have hk1 : s.iws < s.iwild := by
    rcases Nat.lt_or_ge s.iws s.iwild with h | h
    · exact h
    · have : s.iws = s.iwild := by omega
      rw [this] at h8
      exact absurd hstar h8
  have hits_lt : s.its < s.itame := by omega
  rcases skipStarRun_spec star wild (wild.length + 1) s.iwild (by omega) with
    ⟨j, heqr, hj1, hj2, hj3, hj4⟩ | ⟨heqr, hall⟩
  · -- the run ends at a non-star symbol `wild[j]`
    have hstars : ∀ m, s.iwild ≤ m → m < j → wild[m]? = some star := by
      intro m hm1 hm2
      rcases Nat.eq_or_lt_of_le hm1 with hm | hm
      · rw [← hm]; exact hstar
      · exact hj4 m hm hm2
    have hrep : wild.drop s.iwild =
        List.replicate (j - s.iwild) star ++ wild.drop j :=
      drop_eq_replicate_append (by omega) (by omega) hstars
    rw [show j - s.iwild = (j - s.iwild - 1) + 1 from by omega, List.replicate_succ,
      List.cons_append] at hrep
    have e1 : wild.drop s.iws = (wild.drop s.iws).take (s.iwild - s.iws) ++
        (star :: (List.replicate (j - s.iwild - 1) star ++ wild.drop j)) :=
      hw_split.trans (by rw [hrep])
    have chain1 : rmatch star qmark (star :: wild.drop s.iws) (tame.drop s.its) =
        rmatch star qmark (star :: wild.drop j) (tame.drop s.itame) := by
      conv_lhs => rw [e1, ht_split]
      rw [rmatch_star_seg_absorb star qmark hsl hsm, rmatch_star_rep]
    have hreadj : wild[j]? = some wild[j] := List.getElem?_eq_getElem hj2
    have hcs : wild[j] ≠ star := by
      intro hcon
      exact hj3 (by rw [hreadj, hcon])
    by_cases htame : tame.length ≤ s.itame
    · -- text exhausted: return false
      have hmach : phase2star star qmark wild tame s = .inl (.ok false) := by
        simp [phase2star, heqr, htame]
      have hval : rmatch star qmark (star :: wild.drop s.iws) (tame.drop s.its) = false := by
        rw [chain1, List.drop_of_length_le htame, rmatch_star_nil,
          List.drop_eq_getElem_cons hj2, rmatch_lit_nil star qmark hcs]
      constructor
      · intro r hr
        rw [hmach] at hr
        rw [← Sum.inl.inj hr, hval]
      · intro s' hs'
        rw [hmach] at hs'
        exact Sum.noConfusion hs'
    · by_cases hcq : wild[j] = qmark
      · -- next pattern symbol is `?`: no scan
        have hmach : phase2star star qmark wild tame s =
            .inr ⟨j + 1, s.itame + 1, j, s.itame⟩ := by
          simp [phase2star, heqr, htame, hreadj, hcq, phase2tail]
        constructor
        · intro r hr
          rw [hmach] at hr
          exact Sum.noConfusion hr
        · intro s' hs'
          rw [hmach] at hs'
          have hs'' := Sum.inr.inj hs'
          subst hs''
          refine ⟨inv_fresh hj2 (by omega) (Or.inl (by rw [hreadj, hcq])) ?_, ?_, ?_, ?_⟩
          · rw [hreadj]
            simp [hcs]
          · simp only [meas]
            exact meas_step_lt hits_lt (by omega) (by omega)
          · show s.its ≤ s.itame
            omega
          · exact chain1.symm
      · -- scan the text for `wild[j]`
        rcases scanTame2_spec (wild[j]) tame (tame.length + 1) s.itame (by omega)
            (by omega) with ⟨j₂, heqs, hs1, hs2, hs3, hs4⟩ | ⟨heqs, hall2⟩
        · have hmach : phase2star star qmark wild tame s =
              .inr ⟨j + 1, j₂ + 1, j, j₂⟩ := by
            simp [phase2star, heqr, htame, hreadj, hcq, heqs, phase2tail,
              Nat.not_le.mpr hs2]
          have chain2 : rmatch star qmark (star :: wild.drop j) (tame.drop s.itame) =
              rmatch star qmark (star :: wild.drop j) (tame.drop j₂) := by
            rw [List.drop_eq_getElem_cons hj2]
            exact rmatch_scan_skip star qmark hcs hcq _ tame hs1 (by omega) hs4
          constructor
          · intro r hr
            rw [hmach] at hr
            exact Sum.noConfusion hr
          · intro s' hs'
            rw [hmach] at hs'
            have hs'' := Sum.inr.inj hs'
            subst hs''
            refine ⟨inv_fresh hj2 hs2 (Or.inr (by rw [hreadj, hs3])) ?_, ?_, ?_, ?_⟩
            · rw [hreadj]
              simp [hcs]
            · simp only [meas]
              exact meas_step_lt (by omega) (by omega) (by omega)
            · show s.its ≤ j₂
              omega
            · have : rmatch star qmark (star :: wild.drop j) (tame.drop j₂) =
                  rmatch star qmark (star :: wild.drop s.iws) (tame.drop s.its) := by
                rw [chain1, chain2]
              exact this
        · have hmach : phase2star star qmark wild tame s = .inl (.ok false) := by
            simp [phase2star, heqr, htame, hreadj, hcq, heqs]
          have hval : rmatch star qmark (star :: wild.drop s.iws) (tame.drop s.its) =
              false := by
            rw [chain1, List.drop_eq_getElem_cons hj2,
              rmatch_scan_skip star qmark hcs hcq _ tame (by omega) (Nat.le_refl _) hall2,
              List.drop_length, rmatch_star_nil, rmatch_lit_nil star qmark hcs]
          constructor
          · intro r hr
            rw [hmach] at hr
            rw [← Sum.inl.inj hr, hval]
          · intro s' hs'
            rw [hmach] at hs'
            exact Sum.noConfusion hs'
  · -- the pattern ends inside the star run: return true
    have hmach : phase2star star qmark wild tame s = .inl (.ok true) := by
      simp [phase2star, heqr]
    have hstars : ∀ m, s.iwild ≤ m → m < wild.length → wild[m]? = some star := by
      intro m hm1 hm2
      rcases Nat.eq_or_lt_of_le hm1 with hm | hm
      · rw [← hm]; exact hstar
      · exact hall m hm hm2
    have hrep : wild.drop s.iwild =
        List.replicate (wild.length - s.iwild) star ++ wild.drop wild.length :=
      drop_eq_replicate_append (by omega) (Nat.le_refl _) hstars
    rw [List.drop_length, List.append_nil,
      show wild.length - s.iwild = (wild.length - s.iwild - 1) + 1 from by omega,
      List.replicate_succ] at hrep
    have e1 : wild.drop s.iws = (wild.drop s.iws).take (s.iwild - s.iws) ++
        (star :: List.replicate (wild.length - s.iwild - 1) star) :=
      hw_split.trans (by rw [hrep])
    have hval : rmatch star qmark (star :: wild.drop s.iws) (tame.drop s.its) = true := by
      conv_lhs => rw [e1, ht_split]
      rw [rmatch_star_seg_absorb star qmark hsl hsm]
      exact rmatch_allstar star qmark (fun c hc => List.eq_of_mem_replicate hc) _
    constructor
    · intro r hr
      rw [hmach] at hr
      rw [← Sum.inl.inj hr, hval]
    · intro s' hs'
      rw [hmach] at hs'
      exact Sum.noConfusion hs'

/-- Correctness of the backtrack path of the lower loop.  The hypothesis
`hc` records why the current alignment is dead: either the pattern cursor
ran off the end, or the cursors sit on a genuine literal mismatch. -/
theorem backtrack_correct (hsq : star ≠ qmark) {wild tame : List α} {s : MState}
    (hI : Inv star qmark wild tame s)
    (hit : s.itame < tame.length)
    (hc : wild.length ≤ s.iwild ∨
      (∃ c d, wild[s.iwild]? = some c ∧ tame[s.itame]? = some d ∧
        c ≠ d ∧ c ≠ qmark ∧ c ≠ star)) :
    (∀ r, backtrack qmark wild tame s = .inl r →
        r = .ok (rmatch star qmark (star :: wild.drop s.iws) (tame.drop s.its))) ∧
    (∀ s', backtrack qmark wild tame s = .inr s' →
        Inv star qmark wild tame s' ∧ meas wild tame s' < meas wild tame s ∧
        s.its < s'.its ∧
        rmatch star qmark (star :: wild.drop s'.iws) (tame.drop s'.its) =
          rmatch star qmark (star :: wild.drop s.iws) (tame.drop s.its)) := by
  obtain ⟨hw_split, ht_split, hsm, hsl⟩ := inv_splits star qmark hI
  obtain ⟨h1, h2, h3, h4, h5, h6, h7, h8⟩ := hI
  have hits_lt : s.its < tame.length := by omega
  -- Step 1: the current alignment fails outright.
  have hdead : rmatch star qmark (wild.drop s.iws) (tame.drop s.its) = false := by
    rcases hc with hc | ⟨c, d, hcr, hdr, hcd, hcq2, hcs2⟩
    · -- pattern cursor past the end: the star-free tail is shorter than the text
      have hwseg : wild.drop s.iws = (wild.drop s.iws).take (s.iwild - s.iws) := by
        conv_lhs => rw [hw_split]
        rw [List.drop_of_length_le hc, List.append_nil]
      rw [hwseg]
      cases hb : rmatch star qmark ((wild.drop s.iws).take (s.iwild - s.iws))
          (tame.drop s.its) with
      | false => rfl
      | true =>
        exfalso
        have hm := (rmatch_starless_iff star qmark hsl _).mp hb
        have hlen := segMatch_length hm
        have hlen1 : ((wild.drop s.iws).take (s.iwild - s.iws)).length =
            s.iwild - s.iws := by
          simp
          omega
        have hlen2 := List.length_drop s.its tame
        omega
    · -- genuine literal mismatch at the cursors
      have hiwlt : s.iwild < wild.length := by
        by_contra h
        rw [List.getElem?_eq_none (by omega)] at hcr
        exact Option.noConfusion hcr
      have hcw : wild[s.iwild] = c := by
        rw [List.getElem?_eq_getElem hiwlt] at hcr
        exact Option.some_injective _ hcr
      have hdt : tame[s.itame] = d := by
        rw [List.getElem?_eq_getElem hit] at hdr
        exact Option.some_injective _ hdr
      have hw2 : wild.drop s.iwild = c :: wild.drop (s.iwild + 1) := by
        rw [List.drop_eq_getElem_cons hiwlt, hcw]
      have ht2 : tame.drop s.itame = d :: tame.drop (s.itame + 1) := by
        rw [List.drop_eq_getElem_cons hit, hdt]
      rw [hw_split, hw2]
      conv_lhs => rw [ht_split, ht2]
      rw [rmatch_seg_append star qmark hsl hsm, rmatch_lit_cons star qmark hcs2,
        if_neg (by rintro (h | h) <;> [exact hcq2 h; exact hcd h])]
  -- Step 2: the star may no longer consume zero symbols.
  have hkill : rmatch star qmark (star :: wild.drop s.iws) (tame.drop s.its) =
      rmatch star qmark (star :: wild.drop s.iws) (tame.drop (s.its + 1)) := by
    conv_lhs => rw [List.drop_eq_getElem_cons hits_lt]
    rw [rmatch_star_cons,
      show tame[s.its] :: tame.drop (s.its + 1) = tame.drop s.its from
        (List.drop_eq_getElem_cons hits_lt).symm,
      hdead, Bool.false_or]
  -- Step 3: the qmark run at the anchor commits.
  obtain ⟨iws', heqq, hq1, hq2, hq3, hq4⟩ :=
    skipQmarks_spec qmark wild (wild.length + 1) s.iws s.its (by omega) (by omega)
  have hq_le_k : iws' - s.iws ≤ s.iwild - s.iws := by
    by_contra hgt
    have hin : s.iws ≤ s.iwild ∧ s.iwild < iws' := by omega
    have := hq3 s.iwild hin.1 hin.2
    rcases hc with hc | ⟨c, d, hcr, hdr, hcd, hcq2, hcs2⟩
    · rw [List.getElem?_eq_none (by omega)] at this
      exact Option.noConfusion this
    · rw [hcr] at this
      exact hcq2 (Option.some_injective _ this)
  have hrepq : wild.drop s.iws =
      List.replicate (iws' - s.iws) qmark ++ wild.drop iws' :=
    drop_eq_replicate_append hq1 hq2 hq3
  have hqbound : iws' - s.iws ≤ (tame.drop (s.its + 1)).length := by
    have := List.length_drop (s.its + 1) tame
    omega
  have hcommit : rmatch star qmark (star :: wild.drop s.iws) (tame.drop (s.its + 1)) =
      rmatch star qmark (star :: wild.drop iws')
        (tame.drop (s.its + 1 + (iws' - s.iws))) := by
    rw [hrepq, rmatch_star_qmarkrun star qmark hsq,
      rmatch_qmarkrun_consume star qmark hsq, if_pos hqbound, List.drop_drop]
  have hits' : s.its + (iws' - s.iws) < tame.length := by omega
  -- Step 4: the fall-back loop.
  by_cases hw' : wild.length ≤ iws'
  · -- the whole remaining pattern was qmarks: the trailing star matches all
    have hiwse : iws' = wild.length := by omega
    have hmach : backtrack qmark wild tame s = .inl (.ok true) := by
      simp only [backtrack, heqq]
      rw [fallback_spec_long wild tame iws' hw' (tame.length + 1)
        (s.its + (iws' - s.iws)) (by omega)]
    have hval : rmatch star qmark (star :: wild.drop s.iws) (tame.drop s.its) = true := by
      rw [hkill, hcommit, hiwse, List.drop_length]
      exact rmatch_allstar star qmark (by simp) _
    constructor
    · intro r hr
      rw [hmach] at hr
      rw [← Sum.inl.inj hr, hval]
    · intro s' hs'
      rw [hmach] at hs'
      exact Sum.noConfusion hs'
  · have hw'' : iws' < wild.length := by omega
    have hreadw : wild[iws']? = some wild[iws'] := List.getElem?_eq_getElem hw''
    have hc₀q : wild[iws'] ≠ qmark := by
      rcases hq4 with hq4 | hq4
      · omega
      · intro hcon
        exact hq4 (by rw [hreadw, hcon])
    have hc₀s : wild[iws'] ≠ star := by
      rcases Nat.lt_or_ge iws' s.iwild with hlt | hge
      · intro hcon
        exact h7 iws' hq1 hlt (by rw [hreadw, hcon])
      · have hiwse : iws' = s.iwild := by omega
        rcases hc with hc | ⟨c, d, hcr, hdr, hcd, hcq2, hcs2⟩
        · omega
        · intro hcon
          apply hcs2
          have h9 : wild[iws']? = some c := by rw [hiwse]; exact hcr
          rw [hreadw] at h9
          rw [← Option.some_injective _ h9]
          exact hcon
    rcases fallback_spec_scan wild tame iws' hw'' (tame.length + 1)
        (s.its + (iws' - s.iws)) (by omega) with
      ⟨j₃, heqf, hf1, hf2, hf3, hf4⟩ | ⟨heqf, hallf⟩
    · -- the fall-back loop found the scanned-for literal at `j₃`
      have hmach : backtrack qmark wild tame s = .inr ⟨iws' + 1, j₃ + 1, iws', j₃⟩ := by
        simp only [backtrack, heqq, heqf]
        simp [phase2tail, Nat.not_le.mpr hf2]
      have hscan : rmatch star qmark (star :: wild.drop iws')
          (tame.drop (s.its + 1 + (iws' - s.iws))) =
          rmatch star qmark (star :: wild.drop iws') (tame.drop j₃) := by
        rw [List.drop_eq_getElem_cons hw'']
        refine rmatch_scan_skip star qmark hc₀s hc₀q _ tame (by omega) (by omega) ?_
        intro m hm1 hm2
        rw [← hreadw]
        exact hf4 m (by omega) hm2
      constructor
      · intro r hr
        rw [hmach] at hr
        exact Sum.noConfusion hr
      · intro s' hs'
        rw [hmach] at hs'
        have hs'' := Sum.inr.inj hs'
        subst hs''
        have hf3' : tame[j₃]? = some wild[iws'] := by rw [hf3, hreadw]
        refine ⟨inv_fresh hw'' hf2 (Or.inr (by rw [hreadw, hf3'])) ?_, ?_, ?_, ?_⟩
        · rw [hreadw]
          simp [hc₀s]
        · simp only [meas]
          exact meas_step_lt (by omega) (by omega) (by omega)
        · show s.its < j₃
          omega
        · have : rmatch star qmark (star :: wild.drop iws') (tame.drop j₃) =
              rmatch star qmark (star :: wild.drop s.iws) (tame.drop s.its) := by
            rw [hkill, hcommit, hscan]
          exact this
    · -- the fall-back loop ran off the end of the text
      have hmach : backtrack qmark wild tame s = .inl (.ok false) := by
        simp only [backtrack, heqq, heqf]
      have hval : rmatch star qmark (star :: wild.drop s.iws) (tame.drop s.its) =
          false := by
        rw [hkill, hcommit, List.drop_eq_getElem_cons hw'',
          rmatch_scan_skip star qmark hc₀s hc₀q _ tame (by omega) (Nat.le_refl _)
            (fun m hm1 hm2 => by
              rw [← hreadw]
              exact hallf m (by omega) hm2),
          List.drop_length, rmatch_star_nil, rmatch_lit_nil star qmark hc₀s]
      constructor
      · intro r hr
        rw [hmach] at hr
        rw [← Sum.inl.inj hr, hval]
      · intro s' hs'
        rw [hmach] at hs'
        exact Sum.noConfusion hs'

/-- Correctness of the non-star branch of the lower loop. -/
theorem phase2else_correct (hsq : star ≠ qmark) {wild tame : List α} {s : MState}
    (hI : Inv star qmark wild tame s)
    (hns : wild.length ≤ s.iwild ∨ wild[s.iwild]? ≠ some star) :
    (∀ r, phase2else qmark wild tame s = .inl r →
        r = .ok (rmatch star qmark (star :: wild.drop s.iws) (tame.drop s.its))) ∧
    (∀ s', phase2else qmark wild tame s = .inr s' →
        Inv star qmark wild tame s' ∧ meas wild tame s' < meas wild tame s ∧
        s.its ≤ s'.its ∧
        rmatch star qmark (star :: wild.drop s'.iws) (tame.drop s'.its) =
          rmatch star qmark (star :: wild.drop s.iws) (tame.drop s.its)) := by
  by_cases hit : tame.length ≤ s.itame
  · have hmach : phase2else qmark wild tame s =
        .inl (.ok (decide (wild.length ≤ s.iwild))) := by
      simp [phase2else, hit]
    constructor
    · intro r hr
      rw [hmach] at hr
      rw [← Sum.inl.inj hr]
      exact exit_value star qmark hI hit hns
    · intro s' hs'
      rw [hmach] at hs'
      exact Sum.noConfusion hs'
  · have hit' : s.itame < tame.length := by omega
    by_cases hiw : wild.length ≤ s.iwild
    · have hmach : phase2else qmark wild tame s = backtrack qmark wild tame s := by
        simp [phase2else, hit, hiw]
      obtain ⟨hbl, hbr⟩ := backtrack_correct star qmark hsq hI hit' (Or.inl hiw)
      refine ⟨fun r hr => hbl r (hmach ▸ hr), fun s' hs' => ?_⟩
      obtain ⟨a1, a2, a3, a4⟩ := hbr s' (hmach ▸ hs')
      exact ⟨a1, a2, Nat.le_of_lt a3, a4⟩
    · have hiwlt : s.iwild < wild.length := by omega
      have hreadw : wild[s.iwild]? = some wild[s.iwild] := List.getElem?_eq_getElem hiwlt
      have hreadt : tame[s.itame]? = some tame[s.itame] := List.getElem?_eq_getElem hit'
      have hcs : wild[s.iwild] ≠ star := by
        rcases hns with h | h
        · omega
        · intro hcon
          exact h (by rw [hreadw, hcon])
      by_cases hmis : wild[s.iwild] ≠ tame[s.itame] ∧ wild[s.iwild] ≠ qmark
      · have hmach : phase2else qmark wild tame s = backtrack qmark wild tame s := by
          simp [phase2else, hit, hiw, hreadw, hreadt, hmis.1, hmis.2]
        obtain ⟨hbl, hbr⟩ := backtrack_correct star qmark hsq hI hit'
          (Or.inr ⟨wild[s.iwild], tame[s.itame], hreadw, hreadt, hmis.1, hmis.2, hcs⟩)
        refine ⟨fun r hr => hbl r (hmach ▸ hr), fun s' hs' => ?_⟩
        obtain ⟨a1, a2, a3, a4⟩ := hbr s' (hmach ▸ hs')
        exact ⟨a1, a2, Nat.le_of_lt a3, a4⟩
      · have hmis' : wild[s.iwild] = tame[s.itame] ∨ wild[s.iwild] = qmark := by
          by_contra hcon
          push_neg at hcon
          exact hmis ⟨hcon.1, hcon.2⟩
        have hmach : phase2else qmark wild tame s =
            .inr ⟨s.iwild + 1, s.itame + 1, s.iws, s.its⟩ := by
          simp only [phase2else, hit, if_neg hit, if_neg hiw, hreadw, hreadt]
          rw [if_neg hmis]
          simp [phase2tail, hit]
        constructor
        · intro r hr
          rw [hmach] at hr
          exact Sum.noConfusion hr
        · intro s' hs'
          rw [hmach] at hs'
          have hs'' := Sum.inr.inj hs'
          subst hs''
          refine ⟨inv_extend hI hiwlt hit' ?_ ?_, ?_, Nat.le_refl _, rfl⟩
          · rcases hmis' with h | h
            · exact Or.inr (by rw [hreadw, hreadt, h])
            · exact Or.inl (by rw [hreadw, h])
          · rw [hreadw]
            simp [hcs]
          · simp only [meas]
            omega

/-- Correctness of one full iteration of the lower loop. -/
theorem phase2step_correct (hsq : star ≠ qmark) {wild tame : List α} {s : MState}
    (hI : Inv star qmark wild tame s) :
    (∀ r, phase2step star qmark wild tame s = .inl r →
        r = .ok (rmatch star qmark (star :: wild.drop s.iws) (tame.drop s.its))) ∧
    (∀ s', phase2step star qmark wild tame s = .inr s' →
        Inv star qmark wild tame s' ∧ meas wild tame s' < meas wild tame s ∧
        s.its ≤ s'.its ∧
        rmatch star qmark (star :: wild.drop s'.iws) (tame.drop s'.its) =
          rmatch star qmark (star :: wild.drop s.iws) (tame.drop s.its)) := by
  by_cases hiw : wild.length ≤ s.iwild
  · have hmach : phase2step star qmark wild tame s = phase2else qmark wild tame s := by
      simp [phase2step, hiw]
    obtain ⟨hbl, hbr⟩ := phase2else_correct star qmark hsq hI (Or.inl hiw)
    exact ⟨fun r hr => hbl r (hmach ▸ hr), fun s' hs' => hbr s' (hmach ▸ hs')⟩
  · have hiwlt : s.iwild < wild.length := by omega
    have hreadw : wild[s.iwild]? = some wild[s.iwild] := List.getElem?_eq_getElem hiwlt
    by_cases hstarq : wild[s.iwild] = star
    · have hmach : phase2step star qmark wild tame s =
          phase2star star qmark wild tame s := by
        simp [phase2step, hiw, hreadw, hstarq]
      obtain ⟨hbl, hbr⟩ := phase2star_correct star qmark hI (by rw [hreadw, hstarq])
      exact ⟨fun r hr => hbl r (hmach ▸ hr), fun s' hs' => hbr s' (hmach ▸ hs')⟩
    · have hmach : phase2step star qmark wild tame s = phase2else qmark wild tame s := by
        simp [phase2step, hiw, hreadw, hstarq]
      obtain ⟨hbl, hbr⟩ := phase2else_correct star qmark hsq hI
        (Or.inr (by rw [hreadw]; simp [hstarq]))
      exact ⟨fun r hr => hbl r (hmach ▸ hr), fun s' hs' => hbr s' (hmach ▸ hs')⟩

/-- Correctness (and fuel sufficiency) of the whole lower loop. -/
theorem phase2_correct (hsq : star ≠ qmark) (wild tame : List α) :
    ∀ fuel s, Inv star qmark wild tame s → meas wild tame s < fuel →
      phase2 star qmark wild tame fuel s =
        .ok (rmatch star qmark (star :: wild.drop s.iws) (tame.drop s.its)) := by
  intro fuel
  induction fuel with
  | zero => intro s hI h; omega
  | succ fuel ih =>
    intro s hI hfuel
    obtain ⟨hl, hr⟩ := phase2step_correct star qmark hsq hI
    cases hstep : phase2step star qmark wild tame s with
    | inl r =>
      simp only [phase2, hstep]
      exact hl r hstep
    | inr s' =>
      obtain ⟨hI', hm, _, he⟩ := hr s' hstep
      simp only [phase2, hstep]
      rw [ih s' hI' (by omega), he]

/-- Correctness (and fuel sufficiency) of the upper loop. -/
theorem phase1_correct (hsq : star ≠ qmark) (wild tame : List α) :
    ∀ fuel iwild, wild.length - iwild < fuel →
      phase1 star qmark wild tame (fuelBound wild tame) fuel iwild =
        .ok (rmatch star qmark (wild.drop iwild) (tame.drop iwild)) := by
  intro fuel
  induction fuel with
  | zero => intro iwild h; omega
  | succ fuel ih =>
    intro iwild hfuel
    by_cases hit : tame.length ≤ iwild
    · rw [List.drop_of_length_le hit]
      by_cases hiww : wild.length ≤ iwild
      · rw [List.drop_of_length_le hiww, rmatch_nil_nil]
        simp [phase1, hit, hiww]
      · rw [← tailStars_spec star qmark wild (wild.length + 1) iwild (by omega) (by omega)]
        simp [phase1, hit, hiww]
    · have hitlt : iwild < tame.length := by omega
      by_cases hiww : wild.length ≤ iwild
      · rw [List.drop_of_length_le hiww, List.drop_eq_getElem_cons hitlt, rmatch_nil_cons]
        simp [phase1, hit, hiww]
      · have hiwlt : iwild < wild.length := by omega
        have hreadw : wild[iwild]? = some wild[iwild] := List.getElem?_eq_getElem hiwlt
        by_cases hstarq : wild[iwild] = star
        · rcases skipStarRun_spec star wild (wild.length + 1) iwild (by omega) with
            ⟨j, heqr, hj1, hj2, hj3, hj4⟩ | ⟨heqr, hall⟩
          · have hstars : ∀ m, iwild ≤ m → m < j → wild[m]? = some star := by
              intro m hm1 hm2
              rcases Nat.eq_or_lt_of_le hm1 with hm | hm
              · rw [← hm, hreadw, hstarq]
              · exact hj4 m hm hm2
            have hrep : wild.drop iwild =
                List.replicate (j - iwild) star ++ wild.drop j :=
              drop_eq_replicate_append (by omega) (by omega) hstars
            rw [show j - iwild = (j - iwild - 1) + 1 from by omega, List.replicate_succ,
              List.cons_append] at hrep
            have chain0 : rmatch star qmark (wild.drop iwild) (tame.drop iwild) =
                rmatch star qmark (star :: wild.drop j) (tame.drop iwild) := by
              rw [hrep, rmatch_star_rep]
            have hreadj : wild[j]? = some wild[j] := List.getElem?_eq_getElem hj2
            have hcs : wild[j] ≠ star := by
              intro hcon
              exact hj3 (by rw [hreadj, hcon])
            have hnsj : wild[j]? ≠ some star := by
              rw [hreadj]
              simp [hcs]
            by_cases hcq : wild[j] = qmark
            · have hmach : phase1 star qmark wild tame (fuelBound wild tame)
                  (fuel + 1) iwild =
                  phase2 star qmark wild tame (fuelBound wild tame)
                    ⟨j, iwild, j, iwild⟩ := by
                simp [phase1, hit, hiww, hreadw, hstarq, heqr, hreadj, hcq]
              have hp2 : phase2 star qmark wild tame (fuelBound wild tame)
                  ⟨j, iwild, j, iwild⟩ =
                  .ok (rmatch star qmark (star :: wild.drop j) (tame.drop iwild)) :=
                phase2_correct star qmark hsq wild tame (fuelBound wild tame) _
                  (inv_entry (by omega) (by omega) hnsj)
                  (meas_lt_fuelBound wild tame _)
              rw [hmach, hp2, chain0]
            · rcases scanTame1_spec (wild[j]) tame (tame.length + 1) iwild (by omega)
                  hitlt with ⟨j₂, heqs, hs1, hs2, hs3, hs4⟩ | ⟨heqs, hall2⟩
              · have chain2 : rmatch star qmark (star :: wild.drop j) (tame.drop iwild) =
                    rmatch star qmark (star :: wild.drop j) (tame.drop j₂) := by
                  rw [List.drop_eq_getElem_cons hj2]
                  exact rmatch_scan_skip star qmark hcs hcq _ tame hs1 (by omega) hs4
                have hmach : phase1 star qmark wild tame (fuelBound wild tame)
                    (fuel + 1) iwild =
                    phase2 star qmark wild tame (fuelBound wild tame)
                      ⟨j, j₂, j, j₂⟩ := by
                  simp [phase1, hit, hiww, hreadw, hstarq, heqr, hreadj, hcq, heqs]
                have hp2 : phase2 star qmark wild tame (fuelBound wild tame)
                    ⟨j, j₂, j, j₂⟩ =
                    .ok (rmatch star qmark (star :: wild.drop j) (tame.drop j₂)) :=
                  phase2_correct star qmark hsq wild tame (fuelBound wild tame) _
                    (inv_entry (by omega) (by omega) hnsj)
                    (meas_lt_fuelBound wild tame _)
                rw [hmach, hp2, chain0, chain2]
              · have hmach : phase1 star qmark wild tame (fuelBound wild tame)
                    (fuel + 1) iwild = .ok false := by
                  simp [phase1, hit, hiww, hreadw, hstarq, heqr, hreadj, hcq, heqs]
                have hval : rmatch star qmark (wild.drop iwild) (tame.drop iwild) =
                    false := by
                  rw [chain0, List.drop_eq_getElem_cons hj2,
                    rmatch_scan_skip star qmark hcs hcq _ tame (by omega)
                      (Nat.le_refl _) hall2,
                    List.drop_length, rmatch_star_nil, rmatch_lit_nil star qmark hcs]
                rw [hmach, hval]
          · have hmach : phase1 star qmark wild tame (fuelBound wild tame)
                (fuel + 1) iwild = .ok true := by
              simp [phase1, hit, hiww, hreadw, hstarq, heqr]
            have hstars : ∀ m, iwild ≤ m → m < wild.length → wild[m]? = some star := by
              intro m hm1 hm2
              rcases Nat.eq_or_lt_of_le hm1 with hm | hm
              · rw [← hm, hreadw, hstarq]
              · exact hall m hm hm2
            have hrep : wild.drop iwild =
                List.replicate (wild.length - iwild) star ++ wild.drop wild.length :=
              drop_eq_replicate_append (by omega) (Nat.le_refl _) hstars
            rw [List.drop_length, List.append_nil,
              show wild.length - iwild = (wild.length - iwild - 1) + 1 from by omega,
              List.replicate_succ] at hrep
            have hval : rmatch star qmark (wild.drop iwild) (tame.drop iwild) = true := by
              rw [hrep]
              exact rmatch_allstar star qmark
                (fun c hc => List.eq_of_mem_replicate hc) _
            rw [hmach, hval]
        · have hreadt : tame[iwild]? = some tame[iwild] := List.getElem?_eq_getElem hitlt
          rw [List.drop_eq_getElem_cons hiwlt, List.drop_eq_getElem_cons hitlt,
            rmatch_lit_cons star qmark hstarq]
          by_cases hmis : wild[iwild] ≠ tame[iwild] ∧ wild[iwild] ≠ qmark
          · rw [if_neg (by rintro (h | h) <;> [exact hmis.2 h; exact hmis.1 h])]
            have hmach : phase1 star qmark wild tame (fuelBound wild tame)
                (fuel + 1) iwild = .ok false := by
              simp [phase1, hit, hiww, hreadw, hstarq, hreadt, hmis.1, hmis.2]
            rw [hmach]
          · have hpos : wild[iwild] = qmark ∨ wild[iwild] = tame[iwild] := by
              by_contra hcon
              push_neg at hcon
              exact hmis ⟨hcon.2, hcon.1⟩
            rw [if_pos hpos]
            have hmach : phase1 star qmark wild tame (fuelBound wild tame)
                (fuel + 1) iwild =
                phase1 star qmark wild tame (fuelBound wild tame) fuel (iwild + 1) := by
              simp only [phase1, if_neg hit, if_neg hiww, hreadw, hreadt]
              rw [if_neg hstarq, if_neg hmis]
            rw [hmach, ih (iwild + 1) (by omega)]

/-- Master correctness theorem of the embedded machine: for any two finite
symbol sequences it returns the boolean of the reference semantics — in
particular it never runs out of fuel and never indexes out of bounds. -/
theorem fastWildCompareM_eq (hsq : star ≠ qmark) (wild tame : List α) :
    fastWildCompareM star qmark wild tame = .ok (rmatch star qmark wild tame) := by
  have h := phase1_correct star qmark hsq wild tame (wild.length + 1) 0 (by omega)
  simpa [fastWildCompareM] using h

end CoreProof

/-! ## Instantiation of the master theorem -/

theorem fast_wild_compare_ascii_eq (wild_str tame_str : List Nat) :
    fast_wild_compare_ascii wild_str tame_str = rmatch 42 63 wild_str tame_str := by
  unfold fast_wild_compare_ascii
  rw [fastWildCompareM_eq 42 63 (by decide) wild_str tame_str]

theorem fast_wild_compare_utf8_eq (wild_slice tame_slice : List Char) :
    fast_wild_compare_utf8 wild_slice tame_slice =
      rmatch '*' '?' wild_slice tame_slice := by
  unfold fast_wild_compare_utf8
  rw [fastWildCompareM_eq '*' '?' (by decide) wild_slice tame_slice]

/-! ## Further facts about `rmatch` used by the individual claims -/

section ClaimSupport

variable (star qmark : α)

theorem rmatch_nil_right_iff (p : List α) :
    rmatch star qmark p [] = true ↔ ∀ c ∈ p, c = star := by
  induction p with
  | nil => simp [rmatch_nil_nil]
  | cons a ps ih =>
    by_cases ha : a = star
    · subst ha
      rw [rmatch_star_nil, ih]
      simp
    · rw [rmatch_lit_nil star qmark ha]
      constructor
      · intro h
        exact absurd h (by simp)
      · intro h
        exact absurd (h a (by simp)) ha

omit [DecidableEq α] in
theorem segMatch_of_eq {qmark : α} : ∀ p : List α, SegMatch qmark p p
  | [] => trivial
  | _ :: ps => ⟨Or.inr rfl, segMatch_of_eq ps⟩

omit [DecidableEq α] in
theorem segMatch_to_eq {qmark : α} : ∀ {p t : List α}, qmark ∉ p →
    SegMatch qmark p t → p = t
  | [], [], _, _ => rfl
  | [], _ :: _, _, h => absurd h (by simp [SegMatch])
  | _ :: _, [], _, h => absurd h (by simp [SegMatch])
  | a :: ps, c :: ts, hq, h => by
    obtain ⟨hac, h'⟩ := h
    have ha : a ≠ qmark := fun hcon => hq (by simp [hcon])
    have : a = c := by
      rcases hac with h | h
      · exact absurd h ha
      · exact h
    rw [this, segMatch_to_eq (fun hcon => hq (by simp [hcon])) h']

theorem rmatch_no_wildcard_iff {p : List α} (hs : star ∉ p) (hq : qmark ∉ p)
    (t : List α) : rmatch star qmark p t = true ↔ p = t := by
  have hns : ∀ x ∈ p, x ≠ star := fun x hx h => hs (h ▸ hx)
  rw [rmatch_starless_iff star qmark hns]
  constructor
  · exact segMatch_to_eq hq
  · intro h
    subst h
    exact segMatch_of_eq p

theorem rmatch_qmark_replicate_iff (hsq : star ≠ qmark) (n : Nat) (t : List α) :
    rmatch star qmark (List.replicate n qmark) t = true ↔ t.length = n := by
  have h := rmatch_qmarkrun_consume star qmark hsq n [] t
  rw [List.append_nil] at h
  rw [h]
  by_cases hn : n ≤ t.length
  · rw [if_pos hn]
    cases hd : t.drop n with
    | nil =>
      rw [rmatch_nil_nil]
      have := congrArg List.length hd
      simp at this
      constructor
      · intro _
        omega
      · intro _
        rfl
    | cons c ts =>
      rw [rmatch_nil_cons]
      have := congrArg List.length hd
      simp at this
      constructor
      · intro h2
        exact absurd h2 (by simp)
      · intro h2
        omega
  · rw [if_neg hn]
    constructor
    · intro h
      exact absurd h (by simp)
    · intro h
      omega

theorem rmatch_cons_congr {x y : List α} (p : α)
    (h : ∀ t, rmatch star qmark x t = rmatch star qmark y t) :
    ∀ t, rmatch star qmark (p :: x) t = rmatch star qmark (p :: y) t := by
  intro t
  induction t with
  | nil =>
    by_cases hp : p = star
    · subst hp
      rw [rmatch_star_nil, rmatch_star_nil, h]
    · rw [rmatch_lit_nil star qmark hp, rmatch_lit_nil star qmark hp]
  | cons c ts ih =>
    by_cases hp : p = star
    · subst hp
      rw [rmatch_star_cons, rmatch_star_cons, h, ih]
    · rw [rmatch_lit_cons star qmark hp, rmatch_lit_cons star qmark hp, h]

theorem rmatch_append_congr {x y : List α}
    (h : ∀ t, rmatch star qmark x t = rmatch star qmark y t) :
    ∀ (pre t : List α),
      rmatch star qmark (pre ++ x) t = rmatch star qmark (pre ++ y) t := by
  intro pre
  induction pre with
  | nil => exact h
  | cons p pre' ih => exact rmatch_cons_congr star qmark p ih

theorem rmatch_collapse (n : Nat) (pre post t : List α) :
    rmatch star qmark (pre ++ (star :: List.replicate n star) ++ post) t =
      rmatch star qmark (pre ++ [star] ++ post) t := by
  rw [List.append_assoc, List.append_assoc]
  refine rmatch_append_congr star qmark ?_ pre t
  intro u
  rw [List.cons_append, rmatch_star_rep, List.singleton_append]

/-- `rmatch` is invariant under an injective renaming of the alphabet that
preserves the two sentinels. -/
theorem rmatch_map {β : Type} [DecidableEq β] (star2 qmark2 : β)
    (f : α → β) (P : α → Prop) (hs : f star = star2) (hq : f qmark = qmark2)
    (hPs : P star) (hPq : P qmark)
    (hinj : ∀ a b, P a → P b → f a = f b → a = b) :
    ∀ p t, (∀ x ∈ p, P x) → (∀ x ∈ t, P x) →
      rmatch star2 qmark2 (p.map f) (t.map f) = rmatch star qmark p t := by
  intro p
  induction p with
  | nil =>
    intro t _ _
    cases t with
    | nil => simp [rmatch_nil_nil]
    | cons c ts => simp [List.map_cons, rmatch_nil_cons]
  | cons a ps ih =>
    by_cases ha : a = star
    · have hmap : List.map f (a :: ps) = star2 :: List.map f ps := by
        rw [List.map_cons, ha, hs]
      intro t
      induction t with
      | nil =>
        intro hp ht
        have h1 := ih [] (fun x hx => hp x (List.mem_cons_of_mem _ hx)) (by simp)
        rw [List.map_nil] at h1
        rw [hmap, List.map_nil, ha, rmatch_star_nil, rmatch_star_nil, h1]
      | cons c ts iht =>
        intro hp ht
        have h1 := ih (c :: ts) (fun x hx => hp x (List.mem_cons_of_mem _ hx)) ht
        rw [List.map_cons] at h1
        have h2 := iht hp (fun x hx => ht x (List.mem_cons_of_mem _ hx))
        rw [hmap, ha] at h2
        rw [hmap, List.map_cons, ha, rmatch_star_cons, rmatch_star_cons, h1, h2]
    · intro t hp ht
      have hPa : P a := hp a (by simp)
      have hfa_ne_star : f a ≠ star2 := fun h =>
        ha (hinj a star hPa hPs (h.trans hs.symm))
      cases t with
      | nil =>
        rw [List.map_cons, List.map_nil, rmatch_lit_nil star2 qmark2 hfa_ne_star,
          rmatch_lit_nil star qmark ha]
      | cons c ts =>
        have hPc : P c := ht c (by simp)
        rw [List.map_cons, List.map_cons, rmatch_lit_cons star2 qmark2 hfa_ne_star,
          rmatch_lit_cons star qmark ha]
        have hcond : (f a = qmark2 ∨ f a = f c) ↔ (a = qmark ∨ a = c) := by
          constructor
          · rintro (h | h)
            · exact Or.inl (hinj a qmark hPa hPq (h.trans hq.symm))
            · exact Or.inr (hinj a c hPa hPc h)
          · rintro (h | h)
            · exact Or.inl (by rw [h, hq])
            · exact Or.inr (by rw [h])
        by_cases hc : a = qmark ∨ a = c
        · rw [if_pos (hcond.mpr hc), if_pos hc]
          exact ih ts (fun x hx => hp x (List.mem_cons_of_mem _ hx))
            (fun x hx => ht x (List.mem_cons_of_mem _ hx))
        · rw [if_neg (fun h => hc (hcond.mp h)), if_neg hc]

end ClaimSupport

/-- In the ASCII range, decoding is injective and fixes the two sentinel
code points. -/
theorem charOfNat_toNat_ascii : ∀ n, n < 128 → (Char.ofNat n).toNat = n := by
  decide

/-! ## The claims -/

/-- C1: for every pattern and text (finite symbol sequences),
`fast_wild_compare_ascii` and `fast_wild_compare_utf8` return `true` if and
only if the pattern matches the text under the reference semantics
`rmatch`: literals match by exact equality at the implied alignment, `?`
consumes exactly one text symbol (which must exist), and each maximal run
of `*` consumes zero or more text symbols such that the rest of the pattern
still matches the rest of the text. -/
theorem fast_wild_compare_matches_reference :
    (∀ (wild_str tame_str : List Nat),
      fast_wild_compare_ascii wild_str tame_str = rmatch 42 63 wild_str tame_str) ∧
    (∀ (wild_slice tame_slice : List Char),
      fast_wild_compare_utf8 wild_slice tame_slice =
        rmatch '*' '?' wild_slice tame_slice) :=
  ⟨fast_wild_compare_ascii_eq, fast_wild_compare_utf8_eq⟩

/-- C2: on inputs confined to the common ASCII-safe alphabet, the byte
variant and the scalar variant applied to the decoded character sequences
of the same inputs return identical results. -/
theorem ascii_utf8_agree (wild_str tame_str : List Nat)
    (hw : ∀ b ∈ wild_str, b < 128) (ht : ∀ b ∈ tame_str, b < 128) :
    fast_wild_compare_ascii wild_str tame_str =
      fast_wild_compare_utf8 (asciiDecode wild_str) (asciiDecode tame_str) := by
  rw [fast_wild_compare_ascii_eq, fast_wild_compare_utf8_eq]
  unfold asciiDecode
  exact (rmatch_map 42 63 '*' '?' (fun b => Char.ofNat b) (fun b => b < 128)
    (by decide) (by decide) (by decide) (by decide)
    (fun a b ha hb h => by
      have h' : Char.ofNat a = Char.ofNat b := h
      have h2 := congrArg Char.toNat h'
      rw [charOfNat_toNat_ascii a ha, charOfNat_toNat_ascii b hb] at h2
      exact h2)
    wild_str tame_str hw ht).symm

theorem ascii_utf8_agree_witness :
    (∀ b ∈ ([42, 97, 63, 98] : List Nat), b < 128) ∧
    fast_wild_compare_ascii [42, 97, 63, 98] [99, 97, 100, 98] =
      fast_wild_compare_utf8 (asciiDecode [42, 97, 63, 98])
        (asciiDecode [99, 97, 100, 98]) :=
  ⟨by decide, ascii_utf8_agree [42, 97, 63, 98] [99, 97, 100, 98]
    (by decide) (by decide)⟩

/-- C3: both variants terminate and return a boolean on every pair of
finite inputs, empty or pathological: the machine, run with its built-in
fuel, always reaches an `ok` verdict (never `outOfFuel`). -/
theorem fast_wild_compare_terminates :
    (∀ (wild_str tame_str : List Nat),
      ∃ b, fastWildCompareM 42 63 wild_str tame_str = .ok b) ∧
    (∀ (wild_slice tame_slice : List Char),
      ∃ b, fastWildCompareM '*' '?' wild_slice tame_slice = .ok b) :=
  ⟨fun w t => ⟨rmatch 42 63 w t, fastWildCompareM_eq 42 63 (by decide) w t⟩,
   fun w t => ⟨rmatch '*' '?' w t, fastWildCompareM_eq '*' '?' (by decide) w t⟩⟩

/-- C4: empty-input behaviour of both variants: the empty pattern matches
exactly the empty text, and a pattern matches the empty text exactly when
it consists only of `*` symbols (including the empty pattern). -/
theorem empty_input_behaviour :
    (fast_wild_compare_ascii [] [] = true ∧ fast_wild_compare_utf8 [] [] = true) ∧
    ((∀ t : List Nat, t ≠ [] → fast_wild_compare_ascii [] t = false) ∧
      (∀ t : List Char, t ≠ [] → fast_wild_compare_utf8 [] t = false)) ∧
    ((∀ p : List Nat, fast_wild_compare_ascii p [] = true ↔ ∀ c ∈ p, c = 42) ∧
      (∀ p : List Char, fast_wild_compare_utf8 p [] = true ↔ ∀ c ∈ p, c = '*')) := by
  refine ⟨⟨by decide, by decide⟩, ⟨?_, ?_⟩, ⟨?_, ?_⟩⟩
  · intro t htne
    rw [fast_wild_compare_ascii_eq]
    cases t with
    | nil => exact absurd rfl htne
    | cons c ts => exact rmatch_nil_cons 42 63 c ts
  · intro t htne
    rw [fast_wild_compare_utf8_eq]
    cases t with
    | nil => exact absurd rfl htne
    | cons c ts => exact rmatch_nil_cons '*' '?' c ts
  · intro p
    rw [fast_wild_compare_ascii_eq]
    exact rmatch_nil_right_iff 42 63 p
  · intro p
    rw [fast_wild_compare_utf8_eq]
    exact rmatch_nil_right_iff '*' '?' p

theorem empty_input_behaviour_witness :
    ([1] : List Nat) ≠ [] ∧ fast_wild_compare_ascii [] [1] = false :=
  ⟨by decide, empty_input_behaviour.2.1.1 [1] (by decide)⟩

/-- C5: a pattern containing neither `*` nor `?` matches exactly the texts
equal to it element-wise (equal length included), even when the text itself
contains `*` or `?` values, which are ordinary literals there. -/
theorem no_wildcard_exact_equality :
    (∀ (p t : List Nat), 42 ∉ p → 63 ∉ p →
      (fast_wild_compare_ascii p t = true ↔ p = t)) ∧
    (∀ (p t : List Char), '*' ∉ p → '?' ∉ p →
      (fast_wild_compare_utf8 p t = true ↔ p = t)) := by
  constructor
  · intro p t hs hq
    rw [fast_wild_compare_ascii_eq]
    exact rmatch_no_wildcard_iff 42 63 hs hq t
  · intro p t hs hq
    rw [fast_wild_compare_utf8_eq]
    exact rmatch_no_wildcard_iff '*' '?' hs hq t

theorem no_wildcard_exact_equality_witness :
    (42 : Nat) ∉ ([97, 98] : List Nat) ∧ (63 : Nat) ∉ ([97, 98] : List Nat) ∧
    (fast_wild_compare_ascii [97, 98] [42, 63] = true ↔ ([97, 98] : List Nat) = [42, 63]) :=
  ⟨by decide, by decide,
    no_wildcard_exact_equality.1 [97, 98] [42, 63] (by decide) (by decide)⟩

/-- C6: collapsing a run of consecutive `*` symbols anywhere in the pattern
to a single `*` never changes the result, for any text, in both
variants. -/
theorem star_run_collapse :
    (∀ (pre post t : List Nat) (n : Nat),
      fast_wild_compare_ascii (pre ++ (42 :: List.replicate n 42) ++ post) t =
        fast_wild_compare_ascii (pre ++ [42] ++ post) t) ∧
    (∀ (pre post t : List Char) (n : Nat),
      fast_wild_compare_utf8 (pre ++ ('*' :: List.replicate n '*') ++ post) t =
        fast_wild_compare_utf8 (pre ++ ['*'] ++ post) t) := by
  constructor
  · intro pre post t n
    rw [fast_wild_compare_ascii_eq, fast_wild_compare_ascii_eq]
    exact rmatch_collapse 42 63 n pre post t
  · intro pre post t n
    rw [fast_wild_compare_utf8_eq, fast_wild_compare_utf8_eq]
    exact rmatch_collapse '*' '?' n pre post t

/-- C7: a pattern of exactly `n` consecutive `?` symbols matches exactly
the texts of length `n`: each `?` consumes exactly one arbitrary text
symbol, never zero or more than one. -/
theorem qmark_run_exact_length :
    (∀ (n : Nat) (t : List Nat),
      fast_wild_compare_ascii (List.replicate n 63) t = true ↔ t.length = n) ∧
    (∀ (n : Nat) (t : List Char),
      fast_wild_compare_utf8 (List.replicate n '?') t = true ↔ t.length = n) := by
  constructor
  · intro n t
    rw [fast_wild_compare_ascii_eq]
    exact rmatch_qmark_replicate_iff 42 63 (by decide) n t
  · intro n t
    rw [fast_wild_compare_utf8_eq]
    exact rmatch_qmark_replicate_iff '*' '?' (by decide) n t

set_option maxRecDepth 10000 in
/-- C8: the concrete scenarios of the spec hold in both variants (pattern
first, text second). -/
theorem concrete_scenarios :
    (fast_wild_compare_ascii ("*ccd".toList.map Char.toNat)
        ("abcccd".toList.map Char.toNat) = true ∧
      fast_wild_compare_utf8 "*ccd".toList "abcccd".toList = true) ∧
    (fast_wild_compare_ascii ("ab*d".toList.map Char.toNat)
        ("abc".toList.map Char.toNat) = false ∧
      fast_wild_compare_utf8 "ab*d".toList "abc".toList = false) ∧
    (fast_wild_compare_ascii ("*issip*ss*".toList.map Char.toNat)
        ("mississipissippi".toList.map Char.toNat) = true ∧
      fast_wild_compare_utf8 "*issip*ss*".toList "mississipissippi".toList = true) ∧
    (fast_wild_compare_ascii ("*a?b".toList.map Char.toNat)
        ("caaab".toList.map Char.toNat) = true ∧
      fast_wild_compare_utf8 "*a?b".toList "caaab".toList = true) ∧
    (fast_wild_compare_ascii ("?".toList.map Char.toNat) [] = false ∧
      fast_wild_compare_utf8 "?".toList [] = false) ∧
    (fast_wild_compare_ascii ("a*a*a*a*a*a*aa*aaa*a*a*b".toList.map Char.toNat)
        ((List.replicate 50 'a' ++ "b".toList).map Char.toNat) = true ∧
      fast_wild_compare_utf8 "a*a*a*a*a*a*aa*aaa*a*a*b".toList
        (List.replicate 50 'a' ++ "b".toList) = true) := by
  refine ⟨⟨?_, ?_⟩, ⟨?_, ?_⟩, ⟨?_, ?_⟩, ⟨?_, ?_⟩, ⟨?_, ?_⟩, ⟨?_, ?_⟩⟩ <;> decide

/-- C9: single-anchor invariants of the lower loop's step relation, from
any state satisfying the reachable-state invariant `Inv`: (i) along any
continuing step the anchor's text position `its` never decreases, and in
the new state the pattern cursor is at or after the anchor and the text
cursor at or after the text anchor; (ii) a step that takes the backtrack
path resumes the text scan at a position strictly greater than where the
previous tentative match began; (iii) when the star branch is taken, the
step overwrites the single fallback anchor: its outcome does not depend on
the stored anchor at all. -/
theorem single_anchor_step_invariants (star qmark : α) (wild tame : List α)
    (s : MState) (hsq : star ≠ qmark) (hI : Inv star qmark wild tame s) :
    (∀ s', phase2step star qmark wild tame s = .inr s' →
        s.its ≤ s'.its ∧ s'.iws ≤ s'.iwild ∧ s'.its ≤ s'.itame) ∧
    (s.itame < tame.length →
      (wild.length ≤ s.iwild ∨
        (∃ c d, wild[s.iwild]? = some c ∧ tame[s.itame]? = some d ∧
          c ≠ d ∧ c ≠ qmark ∧ c ≠ star)) →
      ∀ s', phase2step star qmark wild tame s = .inr s' → s.its < s'.its) ∧
    (∀ a b a' b', wild[s.iwild]? = some star →
      phase2step star qmark wild tame ⟨s.iwild, s.itame, a, b⟩ =
        phase2step star qmark wild tame ⟨s.iwild, s.itame, a', b'⟩) := by
  refine ⟨?_, ?_, ?_⟩
  · intro s' hstep
    obtain ⟨hI', _, hmono, _⟩ := (phase2step_correct star qmark hsq hI).2 s' hstep
    exact ⟨hmono, hI'.hws, hI'.hts⟩
  · intro hit hc s' hstep
    have hm : phase2step star qmark wild tame s = backtrack qmark wild tame s := by
      rcases hc with hc | ⟨c, d, hcr, hdr, hcd, hcq2, hcs2⟩
      · have hit' : ¬ tame.length ≤ s.itame := by omega
        simp [phase2step, phase2else, hc, hit']
      · have hiwlt : s.iwild < wild.length := by
          by_contra hcon
          rw [List.getElem?_eq_none (by omega)] at hcr
          exact Option.noConfusion hcr
        have hiw : ¬ wild.length ≤ s.iwild := by omega
        have hit' : ¬ tame.length ≤ s.itame := by omega
        have hreadw : wild[s.iwild]? = some wild[s.iwild] :=
          List.getElem?_eq_getElem hiwlt
        have hreadt : tame[s.itame]? = some tame[s.itame] :=
          List.getElem?_eq_getElem hit
        have hcw : wild[s.iwild] = c := Option.some_injective _ (hreadw.symm.trans hcr)
        have hdt : tame[s.itame] = d := Option.some_injective _ (hreadt.symm.trans hdr)
        have hcs' : wild[s.iwild] ≠ star := by
          rw [hcw]
          exact hcs2
        simp only [phase2step, if_neg hiw, hreadw]
        rw [if_neg hcs']
        simp only [phase2else, if_neg hit', if_neg hiw, hreadw, hreadt]
        rw [if_pos ⟨by rw [hcw, hdt]; exact hcd, by rw [hcw]; exact hcq2⟩]
    rw [hm] at hstep
    obtain ⟨_, _, h3, _⟩ := (backtrack_correct star qmark hsq hI hit hc).2 s' hstep
    exact h3
  · intro a b a' b' hst
    have hlt : s.iwild < wild.length := by
      by_contra hcon
      rw [List.getElem?_eq_none (by omega)] at hst
      exact Option.noConfusion hst
    have e : ∀ (x y : Nat), phase2step star qmark wild tame ⟨s.iwild, s.itame, x, y⟩ =
        phase2star star qmark wild tame ⟨s.iwild, s.itame, x, y⟩ := by
      intro x y
      simp [phase2step, Nat.not_le.mpr hlt, hst]
    rw [e a b, e a' b']
    exact rfl

theorem single_anchor_step_invariants_witness :
    ((42 : Nat) ≠ 63) ∧
    (⟨0, 0, 0, 0⟩ : MState).its < (⟨1, 2, 0, 1⟩ : MState).its :=
  ⟨by decide,
    (single_anchor_step_invariants 42 63 [0] [1, 0, 5] ⟨0, 0, 0, 0⟩ (by decide)
        (inv_entry (by decide) (by decide) (by decide))).2.1
      (by decide)
      (Or.inr ⟨0, 1, by decide, by decide, by decide, by decide, by decide⟩)
      ⟨1, 2, 0, 1⟩ (by decide)⟩

/-- C10: for every pair of inputs — non-ASCII byte values for the byte
variant and arbitrary char slices for the scalar variant included — every
index access performed by the machine is in bounds: the `oob` outcome of
the total embedding (where each indexing returns an `Option`) is
unreachable, so neither Rust function can panic. -/
theorem no_out_of_bounds_access :
    (∀ (wild_str tame_str : List Nat),
      fastWildCompareM 42 63 wild_str tame_str ≠ .oob) ∧
    (∀ (wild_slice tame_slice : List Char),
      fastWildCompareM '*' '?' wild_slice tame_slice ≠ .oob) := by
  constructor
  · intro w t
    rw [fastWildCompareM_eq 42 63 (by decide) w t]
    exact fun h => MResult.noConfusion h
  · intro w t
    rw [fastWildCompareM_eq '*' '?' (by decide) w t]
    exact fun h => MResult.noConfusion h




theorem no_out_of_bounds_access_witness :
    fastWildCompareM 42 63 [42, 0] [5, 0, 7] ≠ .oob :=
  no_out_of_bounds_access.1 [42, 0] [5, 0, 7]

end FastWild
